import Mathlib

/-!
Verification development for the RecipeSnap recipe extractor
(`src/recipes/recipe_extractor.py`).  The normalizer stage of
`RecipeExtractor.extract_recipe_with_ai` (everything after the model call),
the model fallback loop, and the helpers they use are embedded as
executable Lean definitions; the claims about them are settled as theorems
at the end of the file.

Modelling conventions:
* Python strings are Lean `String` / `List Char` (Python strings may hold
  lone surrogates, which Lean `Char` cannot; none of the claims depend on
  that corner, and JSON escape sequences denoting lone surrogates are
  rejected by the embedded parser).
* Python dicts are association lists (`List (String × Json)`) with
  insertion-order semantics: updating an existing key keeps its position,
  inserting a fresh key appends at the end, exactly as CPython dicts do.
* `json.loads` is embedded as a fuel-indexed recursive-descent parser
  returning `Option Json`; JSON numbers keep their source lexeme, and the
  non-standard `NaN` / `Infinity` extensions of the Python parser are not
  modelled (no claim depends on them).
* A raised Python exception is `Except.error` carrying the message that the
  caller of `extract_recipe_with_ai` would observe.
-/

open scoped List

/-- JSON values as produced by the embedded `json.loads`.
Numbers keep their source lexeme (e.g. `"1.5"`), which keeps serialisation
exact; objects are insertion-ordered association lists. -/
inductive Json where
  | null : Json
  | bool (b : Bool) : Json
  | num (lex : String) : Json
  | str (s : String) : Json
  | arr (xs : List Json) : Json
  | obj (kvs : List (String × Json)) : Json

/-- `d.get k` / `k in d` lookup on a Python dict modelled as an
association list: the first binding of the key wins. -/
def lookupKey (d : List (String × Json)) (k : String) : Option Json :=
  match d with
  | [] => none
  | (k', v) :: d' => if k' = k then some v else lookupKey d' k

/-- `d[k] = v` on a Python dict: replace the value at the first binding of
`k` if present (keeping its position), otherwise append the new binding. -/
def setKey (d : List (String × Json)) (k : String) (v : Json) :
    List (String × Json) :=
  match d with
  | [] => [(k, v)]
  | (k', v') :: d' => if k' = k then (k', v) :: d' else (k', v') :: setKey d' k v

/-- Characters treated as whitespace by Python's `str.strip()`
(the ASCII ones; exotic Unicode whitespace does not appear in any claim). -/
def pyIsSpace (c : Char) : Bool :=
  c = ' ' || c = '\t' || c = '\n' || c = '\r' || c = '\x0b' || c = '\x0c'

/-- Python `str.strip()` on a character list. -/
def pyStrip (cs : List Char) : List Char :=
  ((cs.dropWhile pyIsSpace).reverse.dropWhile pyIsSpace).reverse

/-! ### The embedded `json.loads`

A fuel-indexed recursive-descent parser.  `loadsList` runs it with fuel
`length + 1`, which is enough for every input the CPython parser accepts
(each pair of recursive calls consumes at least one input character), so
`none` coincides with `json.JSONDecodeError`. -/

/-- Whitespace skipped by the JSON parser (RFC 8259 / CPython `json`). -/
def isJsonWs (c : Char) : Bool :=
  c = ' ' || c = '\t' || c = '\n' || c = '\r'

def skipWs (cs : List Char) : List Char := cs.dropWhile isJsonWs

/-- Value of one hexadecimal digit. -/
def hexVal (c : Char) : Option Nat :=
  if '0' ≤ c ∧ c ≤ '9' then some (c.toNat - '0'.toNat)
  else if 'a' ≤ c ∧ c ≤ 'f' then some (c.toNat - 'a'.toNat + 10)
  else if 'A' ≤ c ∧ c ≤ 'F' then some (c.toNat - 'A'.toNat + 10)
  else none

/-- Characters that can occur inside a JSON number literal. -/
def numChar (c : Char) : Bool :=
  c.isDigit || c = '-' || c = '+' || c = '.' || c = 'e' || c = 'E'

/-- Require at least one decimal digit, return the input after the digit run. -/
def digitRun : List Char → Option (List Char)
  | c :: cs => if c.isDigit then some (cs.dropWhile Char.isDigit) else none
  | [] => none

/-- Exponent part of the strict JSON number grammar, then end of lexeme. -/
def expEnd (cs : List Char) : Bool :=
  match cs with
  | [] => true
  | e :: rest =>
    if e = 'e' ∨ e = 'E' then
      let rest' := match rest with
        | s :: rest'' => if s = '+' ∨ s = '-' then rest'' else s :: rest''
        | [] => []
      match digitRun rest' with
      | some [] => true
      | _ => false
    else false

/-- Optional fraction then optional exponent, then end of lexeme. -/
def fracExpEnd : List Char → Bool
  | [] => expEnd []
  | c :: rest =>
    if c = '.' then
      match digitRun rest with
      | some r => expEnd r
      | none => false
    else expEnd (c :: rest)

/-- Integer part of the grammar: `0`, or a nonzero digit followed by digits. -/
def intRestEnd : List Char → Bool
  | [] => false
  | c :: rest =>
    if c = '0' then fracExpEnd rest
    else c.isDigit && fracExpEnd (rest.dropWhile Char.isDigit)

/-- The strict JSON number grammar
`-?(0|[1-9][0-9]*)(\.[0-9]+)?([eE][+-]?[0-9]+)?`, as matched by CPython's
`json` scanner (the non-standard `NaN`/`Infinity` extensions are not
modelled). -/
def validNum : List Char → Bool
  | [] => false
  | c :: rest => if c = '-' then intRestEnd rest else intRestEnd (c :: rest)

/-- Lex a number at the head of the input: take the maximal run of
number-literal characters and accept it iff it matches the strict grammar.
On accepted documents this agrees with CPython's regex-based scanner; when
the regex would match a shorter chunk, the following character is illegal
as a continuation, so both parsers fail. -/
def parseNum (cs : List Char) : Option (Json × List Char) :=
  let chunk := cs.takeWhile numChar
  if validNum chunk then some (.num ⟨chunk⟩, cs.drop chunk.length)
  else none

/-- Decode the body of a JSON string literal (after the opening quote),
returning the decoded characters and the input after the closing quote.
Unescaped control characters are rejected (CPython's `strict=True`);
escape sequences denoting surrogates are rejected, since Lean `Char`
cannot represent lone surrogates. -/
def parseStrChars : Nat → List Char → Option (List Char × List Char)
  | 0, _ => none
  | fuel + 1, cs =>
    match cs with
    | [] => none
    | c :: rest =>
      if c = '"' then some ([], rest)
      else if c = '\\' then
        match rest with
        | [] => none
        | e :: rest' =>
          let dec : Option (Char × List Char) :=
            if e = '"' then some ('"', rest')
            else if e = '\\' then some ('\\', rest')
            else if e = '/' then some ('/', rest')
            else if e = 'b' then some ('\x08', rest')
            else if e = 'f' then some ('\x0c', rest')
            else if e = 'n' then some ('\n', rest')
            else if e = 'r' then some ('\r', rest')
            else if e = 't' then some ('\t', rest')
            else if e = 'u' then
              match rest' with
              | h1 :: h2 :: h3 :: h4 :: rest2 =>
                match hexVal h1, hexVal h2, hexVal h3, hexVal h4 with
                | some a, some b, some c', some d =>
                  let n := ((a * 16 + b) * 16 + c') * 16 + d
                  if 0xd800 ≤ n ∧ n < 0xe000 then none
                  else some (Char.ofNat n, rest2)
                | _, _, _, _ => none
              | _ => none
            else none
          match dec with
          | some (c', r2) =>
            match parseStrChars fuel r2 with
            | some (s, r) => some (c' :: s, r)
            | none => none
          | none => none
      else if c.toNat < 0x20 then none
      else
        match parseStrChars fuel rest with
        | some (s, r) => some (c :: s, r)
        | none => none

mutual

/-- Parse one JSON value at the head of the input (no leading whitespace). -/
def parseVal : Nat → List Char → Option (Json × List Char)
  | 0, _ => none
  | fuel + 1, cs =>
    match cs with
    | [] => none
    | c :: rest =>
      if c = '"' then
        match parseStrChars (fuel + 1) rest with
        | some (s, r) => some (.str ⟨s⟩, r)
        | none => none
      else if c = '[' then
        match skipWs rest with
        | [] => none
        | d :: r1 =>
          if d = ']' then some (.arr [], r1)
          else
            match parseElems fuel (d :: r1) with
            | some (xs, r') => some (.arr xs, r')
            | none => none
      else if c = '{' then
        match skipWs rest with
        | [] => none
        | d :: r1 =>
          if d = '}' then some (.obj [], r1)
          else
            match parseMembers fuel (d :: r1) [] with
            | some (kvs, r') => some (.obj kvs, r')
            | none => none
      else if c = 'n' then
        match rest with
        | 'u' :: 'l' :: 'l' :: r => some (.null, r)
        | _ => none
      else if c = 't' then
        match rest with
        | 'r' :: 'u' :: 'e' :: r => some (.bool true, r)
        | _ => none
      else if c = 'f' then
        match rest with
        | 'a' :: 'l' :: 's' :: 'e' :: r => some (.bool false, r)
        | _ => none
      else parseNum (c :: rest)
termination_by structural fuel _ => fuel

/-- Parse the comma-separated elements of a non-empty array, consuming the
closing bracket. -/
def parseElems : Nat → List Char → Option (List Json × List Char)
  | 0, _ => none
  | fuel + 1, cs =>
    match parseVal fuel cs with
    | none => none
    | some (v, rest) =>
      match skipWs rest with
      | ',' :: r =>
        match parseElems fuel (skipWs r) with
        | some (xs, r') => some (v :: xs, r')
        | none => none
      | ']' :: r => some ([v], r)
      | _ => none
termination_by structural fuel _ => fuel

/-- Parse the members of a non-empty object into a dict (a duplicate key
overwrites the value while keeping the first position, as CPython dicts
do), consuming the closing brace. -/
def parseMembers : Nat → List Char → List (String × Json) →
    Option (List (String × Json) × List Char)
  | 0, _, _ => none
  | fuel + 1, cs, acc =>
    match cs with
    | '"' :: r0 =>
      match parseStrChars (fuel + 1) r0 with
      | none => none
      | some (k, r1) =>
        match skipWs r1 with
        | ':' :: r2 =>
          match parseVal fuel (skipWs r2) with
          | none => none
          | some (v, r3) =>
            let acc' := setKey acc ⟨k⟩ v
            match skipWs r3 with
            | ',' :: r4 => parseMembers fuel (skipWs r4) acc'
            | '}' :: r4 => some (acc', r4)
            | _ => none
        | _ => none
    | _ => none
termination_by structural fuel _ _ => fuel

end

/-- `json.loads` on a character list; `none` models `json.JSONDecodeError`. -/
def loadsList (cs : List Char) : Option Json :=
  match parseVal (cs.length + 1) (skipWs cs) with
  | some (v, rest) => if skipWs rest = [] then some v else none
  | none => none

/-- `json.loads` on a string. -/
def loads (s : String) : Option Json := loadsList s.data

/-! ### JSON serialisation

Used to state the idempotence claim ("serialise the record back to JSON
text and re-run the normalizer").  Compact separators; `"`, `\` and
control characters are escaped (other characters are emitted raw, as
`json.dumps` does with `ensure_ascii=False`). -/

/-- One lowercase hexadecimal digit. -/
def hexDig (k : Nat) : Char :=
  if k < 10 then Char.ofNat ('0'.toNat + k) else Char.ofNat ('a'.toNat + k - 10)

/-- The four hex digits of `n % 0x10000`, lowercase. -/
def hex4 (n : Nat) : List Char :=
  [hexDig (n / 4096 % 16), hexDig (n / 256 % 16), hexDig (n / 16 % 16), hexDig (n % 16)]

/-- Escape one character for a JSON string literal. -/
def escapeChar (c : Char) : List Char :=
  if c = '"' then ['\\', '"']
  else if c = '\\' then ['\\', '\\']
  else if c.toNat < 0x20 then '\\' :: 'u' :: hex4 c.toNat
  else [c]

/-- A JSON string literal for `s`, quotes included. -/
def escapeStr (s : String) : List Char :=
  '"' :: (s.data.map escapeChar).flatten ++ ['"']

mutual

/-- Serialise a JSON value (compact form). -/
def dumpsVal : Json → List Char
  | .null => "null".data
  | .bool true => "true".data
  | .bool false => "false".data
  | .num l => l.data
  | .str s => escapeStr s
  | .arr xs => '[' :: dumpsElems xs ++ [']']
  | .obj kvs => '{' :: dumpsMembers kvs ++ ['}']

/-- Serialise array elements, comma separated. -/
def dumpsElems : List Json → List Char
  | [] => []
  | [x] => dumpsVal x
  | x :: xs => dumpsVal x ++ ',' :: dumpsElems xs

/-- Serialise object members, comma separated. -/
def dumpsMembers : List (String × Json) → List Char
  | [] => []
  | [(k, v)] => escapeStr k ++ ':' :: dumpsVal v
  | (k, v) :: kvs => escapeStr k ++ ':' :: dumpsVal v ++ ',' :: dumpsMembers kvs

end

/-- Serialise a JSON value to a string. -/
def dumps (v : Json) : String := ⟨dumpsVal v⟩

/-- No key occurs twice (dicts built by `setKey` always satisfy this). -/
def keysNodup : List (String × Json) → Bool
  | [] => true
  | (k, _) :: kvs => !(kvs.any (fun kv => kv.1 == k)) && keysNodup kvs

/-- Well-formedness of the JSON values the embedded parser can produce:
number lexemes match the strict grammar and consist of number characters,
and object keys are duplicate-free.  Serialising a well-formed value and
re-parsing it gives the value back. -/
inductive WfJ : Json → Prop where
  | null : WfJ .null
  | bool (b : Bool) : WfJ (.bool b)
  | num (l : String) (h1 : validNum l.data = true) (h2 : l.data.all numChar = true) :
      WfJ (.num l)
  | str (s : String) : WfJ (.str s)
  | arr (xs : List Json) (h : ∀ x ∈ xs, WfJ x) : WfJ (.arr xs)
  | obj (kvs : List (String × Json)) (hk : keysNodup kvs = true)
      (h : ∀ kv ∈ kvs, WfJ kv.2) : WfJ (.obj kvs)

/-- The character after a serialised number must not extend the lexeme. -/
def numBoundary : List Char → Bool
  | [] => true
  | c :: _ => !numChar c

/-! ### The Normalizer stage of `extract_recipe_with_ai`

Everything the Python method does to the model completion, lines 231-313
of `recipe_extractor.py`: strip, fence removal, `json.loads`, regex
recovery, empty-structure fallback, field backfill, `source_url`. -/

/-- The `` ``` `` fence marker. -/
def ticks : List Char := ['`', '`', '`']

/-- The `json` language tag that may follow an opening fence. -/
def jsonTag : List Char := ['j', 's', 'o', 'n']

/-- Python `str.split("```")`: split on non-overlapping occurrences of the
triple-backtick marker, scanning left to right. -/
def splitTicks : List Char → List (List Char)
  | '`' :: '`' :: '`' :: rest => [] :: splitTicks rest
  | c :: cs =>
    match splitTicks cs with
    | p :: ps => (c :: p) :: ps
    | [] => [[c]]
  | [] => [[]]

/-- Python `str.split("```json")`. -/
def splitTicksJson : List Char → List (List Char)
  | '`' :: '`' :: '`' :: 'j' :: 's' :: 'o' :: 'n' :: rest => [] :: splitTicksJson rest
  | c :: cs =>
    match splitTicksJson cs with
    | p :: ps => (c :: p) :: ps
    | [] => [[c]]
  | [] => [[]]

/-- Lines 234-243: if the (already stripped) response text starts with a
triple-backtick fence, recover the inner payload: take the part between
the first two markers and drop a leading `json` tag, or, with fewer than
three split parts, delete every `` ```json `` and `` ``` `` occurrence
(`str.replace` with an empty replacement is a split-and-join); then strip
again. -/
def stripFences (cs : List Char) : List Char :=
  if ticks.isPrefixOf cs then
    pyStrip
      (match splitTicks cs with
       | _ :: p :: _ :: _ => if jsonTag.isPrefixOf p then p.drop 4 else p
       | _ => (splitTicks (splitTicksJson cs).flatten).flatten)
  else cs

/-- Line 231 + lines 234-243: the cleaned response text handed to
`json.loads`. -/
def cleanResponse (s : String) : List Char := stripFences (pyStrip s.data)

/-- `re.search(r'\{.*\}', text, re.DOTALL)`: the span from the first `{`
to the last `}` after it, if any (drop up to the first `{`, then cut the
tail after the last `}`; no match when either is missing). -/
def braceSpan (cs : List Char) : Option (List Char) :=
  match cs.dropWhile (fun c => c ≠ '{') with
  | [] => none
  | c :: t =>
    match (t.reverse.dropWhile (fun c => c ≠ '}')).reverse with
    | [] => none
    | span => some (c :: span)

/-- Whether the completion text contains a `{...}` span (a `{` followed,
later, by a `}`) — the condition for the regex recovery to fire. -/
def hasBraceSpan (s : String) : Bool := (braceSpan s.data).isSome

/-- The canonical `tags` map with all four categories empty. -/
def defaultTags : Json :=
  .obj [("cuisine", .arr []), ("main_ingredient", .arr []),
        ("cooking_method", .arr []), ("meal_type", .arr [])]

/-- The canonical empty recipe structure built by the two terminal
fallback branches (lines 262-274 and 278-290). -/
def emptyRecipe : List (String × Json) :=
  [("title", .null), ("ingredients", .arr []), ("directions", .arr []),
   ("cooking_time", .null), ("servings", .null), ("tags", defaultTags)]

/-- Lines 249-290: primary `json.loads`, regex recovery on failure, and
the canonical empty structure as terminal fallback.  Never fails. -/
def parseRepair (cs : List Char) : Json :=
  match loadsList cs with
  | some v => v
  | none =>
    match braceSpan cs with
    | some span =>
      match loadsList span with
      | some w => w
      | none => .obj emptyRecipe
    | none => .obj emptyRecipe

/-- The `type(x).__name__` Python would print in the `AttributeError`
raised by `recipe_data.get` on a non-dict value. -/
def pyTypeName : Json → String
  | .null => "NoneType"
  | .bool _ => "bool"
  | .num l => if l.data.any (fun c => c = '.' || c = 'e' || c = 'E') then "float" else "int"
  | .str _ => "str"
  | .arr _ => "list"
  | .obj _ => "dict"

/-- Lines 296-309: backfill the four required keys when absent. -/
def ensureFields (d : List (String × Json)) : List (String × Json) :=
  let d1 := if (lookupKey d "title").isSome then d else setKey d "title" .null
  let d2 := if (lookupKey d1 "ingredients").isSome then d1 else setKey d1 "ingredients" (.arr [])
  let d3 := if (lookupKey d2 "directions").isSome then d2 else setKey d2 "directions" (.arr [])
  if (lookupKey d3 "tags").isSome then d3 else setKey d3 "tags" defaultTags

/-- The Normalizer: lines 231-313 of `extract_recipe_with_ai`, from the
raw completion text to the returned record.  When the parsed completion
is not a dict, line 293 (`recipe_data.get`) raises an `AttributeError`,
which the enclosing handler re-raises as "AI extraction failed: ..."; that
is the `Except.error` branch. -/
def normalizeResponse (completion url : String) :
    Except String (List (String × Json)) :=
  match parseRepair (cleanResponse completion) with
  | .obj d => .ok (setKey (ensureFields d) "source_url" (.str url))
  | v =>
    .error ("AI extraction failed: '" ++ pyTypeName v ++
      "' object has no attribute 'get'")

/-! ### The model fallback loop (lines 199-229) -/

/-- The prioritized model list of lines 200-205. -/
def modelsToTry : List String :=
  ["claude-3-5-sonnet-20240620", "claude-3-opus-20240229",
   "claude-3-sonnet-20240229", "claude-3-haiku-20240307"]

/-- Python's substring test `pat in s` on character lists. -/
def containsSeq (pat : List Char) : List Char → Bool
  | [] => pat.isEmpty
  | c :: cs => pat.isPrefixOf (c :: cs) || containsSeq pat cs

/-- Line 223: the "model not found" error class — `"404" in str(e) or
"not_found" in str(e).lower()`. -/
def isNotFoundError (e : String) : Bool :=
  containsSeq "404".data e.data || containsSeq "not_found".data e.toLower.data

/-- Lines 207-229: try each model in order; on a "not found" error record
it and continue, on any other error re-raise; after an exhausted loop wrap
the last error.  Errors are modelled by their message strings. -/
def tryModels (call : String → Except String String) :
    List String → Option String → Except String String
  | [], lastError =>
    .error ("None of the models worked. Last error: " ++
      (match lastError with | some e => e | none => "None"))
  | m :: ms, _ =>
    match call m with
    | .ok r => .ok r
    | .error e =>
      if isNotFoundError e then tryModels call ms (some e)
      else .error e

/-- The whole of `extract_recipe_with_ai` after prompt construction: run
the fallback loop, then the Normalizer on the completion; every exception
crossing the method boundary is wrapped as "AI extraction failed: ..."
by the handler at lines 332-334. -/
def extract_recipe_with_ai (call : String → Except String String)
    (source_url : String) : Except String (List (String × Json)) :=
  match tryModels call modelsToTry none with
  | .error e => .error ("AI extraction failed: " ++ e)
  | .ok text => normalizeResponse text source_url

/-- Modelled from the spec's words (§4.3 "Model selection policy"): given
the per-model outcomes in priority order, a success is returned as-is, a
"model not found" failure advances to the next candidate, any other
failure is propagated immediately, and when every candidate failed with
"not found" the last underlying error is wrapped in the "no model
available" report. -/
def specFallback : List (Except String String) → Except String String
  | [] => .error "None of the models worked. Last error: None"
  | [o] =>
    match o with
    | .ok r => .ok r
    | .error e =>
      if isNotFoundError e then
        .error ("None of the models worked. Last error: " ++ e)
      else .error e
  | o :: rest =>
    match o with
    | .ok r => .ok r
    | .error e => if isNotFoundError e then specFallback rest else .error e

/-! ### Concrete inputs used by the claims -/

/-- The completion of the spec's Tacos scenario (claim C3). -/
def tacosCompletion : String :=
  "```json\n\x7b\"title\":\"Tacos\",\"ingredients\":[\"1 lb beef\"]\x7d\n```"

/-- A completion whose JSON supplies a `tags` object with only one of the
four category keys (claim C4). -/
def partialTagsCompletion : String :=
  "\x7b\"tags\":\x7b\"cuisine\":[\"Thai\"]\x7d\x7d"

/-- A completion whose JSON binds `ingredients` to an explicit `null`
(claim C5). -/
def nullIngredientsCompletion : String :=
  "\x7b\"ingredients\":null\x7d"

/-- A completion using only the historical synonym field names
(claim C6). -/
def synonymsCompletion : String :=
  "\x7b\"recipeName\":\"Tacos Supreme\",\"instructions\":[\"Step 1\"]\x7d"

/-- A payload that itself contains a triple-backtick marker (claim C7). -/
def backtickPayload : String := "\x7b\"title\":\"x```y\"\x7d"

/-- Wrap a payload in a fence with the `json` language tag. -/
def fencedJson (p : String) : String := "```json\n" ++ p ++ "\n```"

/-- Wrap a payload in a fence without a language tag. -/
def fencedPlain (p : String) : String := "```\n" ++ p ++ "\n```"

/-! ## Helper lemmas -/

theorem lookupKey_setKey_self (d : List (String × Json)) (k : String) (v : Json) :
    lookupKey (setKey d k v) k = some v := by
  induction d with
  | nil => simp [setKey, lookupKey]
  | cons kv d' ih =>
    obtain ⟨k', v'⟩ := kv
    by_cases h : k' = k <;> simp [setKey, lookupKey, h, ih]

theorem lookupKey_setKey_ne (d : List (String × Json)) (k k' : String) (v : Json)
    (h : k' ≠ k) : lookupKey (setKey d k v) k' = lookupKey d k' := by
  have h' : k ≠ k' := Ne.symm h
  induction d with
  | nil => simp [setKey, lookupKey, h']
  | cons kv d' ih =>
    obtain ⟨k₀, v₀⟩ := kv
    by_cases h₀ : k₀ = k
    · subst h₀
      simp [setKey, lookupKey, h']
    · by_cases h₁ : k₀ = k' <;> simp [setKey, lookupKey, h, h₀, h₁, ih]

theorem setKey_eq_self (d : List (String × Json)) (k : String) (v : Json)
    (h : lookupKey d k = some v) : setKey d k v = d := by
  induction d with
  | nil => simp [lookupKey] at h
  | cons kv d' ih =>
    obtain ⟨k', v'⟩ := kv
    by_cases h' : k' = k
    · simp [lookupKey, h'] at h
      simp [setKey, h', h]
    · simp [lookupKey, h'] at h
      simp [setKey, h', ih h]

/-- A backfill step for a different key does not change a lookup. -/
theorem lookupKey_backfill_ne (d : List (String × Json)) (k : String) (v : Json)
    (k' : String) (h : k' ≠ k) :
    lookupKey (if (lookupKey d k).isSome then d else setKey d k v) k' =
      lookupKey d k' := by
  split
  · rfl
  · exact lookupKey_setKey_ne d k k' v h

/-- A backfill step for a key makes the key's value its old value if
present, the default otherwise. -/
theorem lookupKey_backfill_self (d : List (String × Json)) (k : String) (v : Json) :
    lookupKey (if (lookupKey d k).isSome then d else setKey d k v) k =
      some ((lookupKey d k).getD v) := by
  cases h : lookupKey d k <;> simp [h, lookupKey_setKey_self]

/-! ## Claims -/

/-- Claim C1 (code bug): the claim says the normalizer stage returns a
structurally complete record for every completion text and never raises
except for AI-call errors; but for the completion "[1,2]" — valid JSON
that is not an object — line 293 (`recipe_data.get`) raises an
`AttributeError`, which leaves the method as an "AI extraction failed"
error. -/
theorem claim_C1_nonobject_completion_raises :
    normalizeResponse "[1,2]" "https://example.com/r" =
      .error "AI extraction failed: 'list' object has no attribute 'get'" := rfl

/-- Claim C3 counterexample: on the spec's Tacos scenario the record
produced by the normalizer does not contain the keys `cooking_time` and
`servings` at all — the backfill of lines 296-309 covers only `title`,
`ingredients`, `directions` and `tags` — so the claimed output (with both
keys present and null) is wrong. -/
theorem claim_C3_counterexample :
    normalizeResponse tacosCompletion "https://example.com/tacos" =
      .ok [("title", Json.str "Tacos"),
           ("ingredients", Json.arr [Json.str "1 lb beef"]),
           ("directions", Json.arr []),
           ("tags", defaultTags),
           ("source_url", Json.str "https://example.com/tacos")] ∧
    lookupKey [("title", Json.str "Tacos"),
               ("ingredients", Json.arr [Json.str "1 lb beef"]),
               ("directions", Json.arr []),
               ("tags", defaultTags),
               ("source_url", Json.str "https://example.com/tacos")]
        "cooking_time" = none ∧
    lookupKey [("title", Json.str "Tacos"),
               ("ingredients", Json.arr [Json.str "1 lb beef"]),
               ("directions", Json.arr []),
               ("tags", defaultTags),
               ("source_url", Json.str "https://example.com/tacos")]
        "servings" = none :=
  ⟨rfl, rfl, rfl⟩

/-- Claim C3 as amended: for any source URL, the Tacos completion yields
exactly the claimed record except that `cooking_time` and `servings` are
absent (not present-and-null), since the backfill does not cover them. -/
theorem claim_C3_amended (u : String) :
    normalizeResponse tacosCompletion u =
      .ok [("title", Json.str "Tacos"),
           ("ingredients", Json.arr [Json.str "1 lb beef"]),
           ("directions", Json.arr []),
           ("tags", defaultTags),
           ("source_url", Json.str u)] := rfl

/-- Claim C4 counterexample: when the parsed completion supplies a `tags`
object with only `cuisine`, the normalizer's record keeps that partial
mapping as-is — `main_ingredient`, `cooking_method` and `meal_type` are
missing — because lines 303-309 backfill `tags` only when the key is
absent altogether. -/
theorem claim_C4_counterexample :
    normalizeResponse partialTagsCompletion "https://example.com/r4" =
      .ok [("tags", Json.obj [("cuisine", Json.arr [Json.str "Thai"])]),
           ("title", Json.null),
           ("ingredients", Json.arr []),
           ("directions", Json.arr []),
           ("source_url", Json.str "https://example.com/r4")] ∧
    lookupKey [("cuisine", Json.arr [Json.str "Thai"])] "main_ingredient" = none ∧
    lookupKey [("cuisine", Json.arr [Json.str "Thai"])] "cooking_method" = none ∧
    lookupKey [("cuisine", Json.arr [Json.str "Thai"])] "meal_type" = none :=
  ⟨rfl, rfl, rfl, rfl⟩

/-- Claim C4 as amended: the backfill binds `tags` to the canonical
four-category empty map only when the parsed object has no `tags` key at
all; a supplied `tags` value — complete or not — is passed through
unchanged. -/
theorem claim_C4_amended (d : List (String × Json)) :
    lookupKey (ensureFields d) "tags" =
      some ((lookupKey d "tags").getD defaultTags) := by
  show lookupKey (if (lookupKey _ "tags").isSome then _ else setKey _ "tags" defaultTags) "tags" = _
  rw [lookupKey_backfill_self]
  rw [lookupKey_backfill_ne _ _ _ _ (by decide),
    lookupKey_backfill_ne _ _ _ _ (by decide),
    lookupKey_backfill_ne _ _ _ _ (by decide)]

/-- Claim C5 counterexample: a completion whose JSON binds `ingredients`
to `null` yields a record whose `ingredients` is `null`, not a sequence —
the backfill of line 299 only fires when the key is absent (`'ingredients'
not in recipe_data`), and an explicit `null` value counts as present. -/
theorem claim_C5_counterexample :
    normalizeResponse nullIngredientsCompletion "https://example.com/r5" =
      .ok [("ingredients", Json.null),
           ("title", Json.null),
           ("directions", Json.arr []),
           ("tags", defaultTags),
           ("source_url", Json.str "https://example.com/r5")] ∧
    lookupKey [("ingredients", Json.null),
               ("title", Json.null),
               ("directions", Json.arr []),
               ("tags", defaultTags),
               ("source_url", Json.str "https://example.com/r5")] "ingredients" =
      some Json.null :=
  ⟨rfl, rfl⟩

/-- Claim C5 as amended: after the backfill, `ingredients` and
`directions` are always present — bound to the empty sequence when the
parsed object omitted the key, and to the parsed value (which may be
`null`) when it was present. -/
theorem claim_C5_amended (d : List (String × Json)) :
    lookupKey (ensureFields d) "ingredients" =
      some ((lookupKey d "ingredients").getD (Json.arr [])) ∧
    lookupKey (ensureFields d) "directions" =
      some ((lookupKey d "directions").getD (Json.arr [])) := by
  unfold ensureFields
  constructor
  · rw [lookupKey_backfill_ne _ _ _ _ (by decide),
      lookupKey_backfill_ne _ _ _ _ (by decide),
      lookupKey_backfill_self,
      lookupKey_backfill_ne _ _ _ _ (by decide)]
  · rw [lookupKey_backfill_ne _ _ _ _ (by decide),
      lookupKey_backfill_self,
      lookupKey_backfill_ne _ _ _ _ (by decide),
      lookupKey_backfill_ne _ _ _ _ (by decide)]

/-- Claim C6 counterexample: a completion that carries only the historical
field names — `recipeName` and `instructions` — gets the defaults (`null`
title, empty `directions`) instead of the synonyms' values; lines 296-311
contain no synonym resolution, and the synonym bindings are carried
through untouched. -/
theorem claim_C6_counterexample :
    normalizeResponse synonymsCompletion "https://example.com/r6" =
      .ok [("recipeName", Json.str "Tacos Supreme"),
           ("instructions", Json.arr [Json.str "Step 1"]),
           ("title", Json.null),
           ("ingredients", Json.arr []),
           ("directions", Json.arr []),
           ("tags", defaultTags),
           ("source_url", Json.str "https://example.com/r6")] ∧
    lookupKey [("recipeName", Json.str "Tacos Supreme"),
               ("instructions", Json.arr [Json.str "Step 1"]),
               ("title", Json.null),
               ("ingredients", Json.arr []),
               ("directions", Json.arr []),
               ("tags", defaultTags),
               ("source_url", Json.str "https://example.com/r6")] "title" =
      some Json.null :=
  ⟨rfl, rfl⟩

/-- Claim C6 as amended: the normalizer performs no synonym adoption.
When the canonical key is absent it substitutes the default — `null` for
`title`, `[]` for `directions` — even though `recipeName` respectively
`instructions` is present, and the synonym bindings survive unchanged. -/
theorem claim_C6_amended (d : List (String × Json)) (v w : Json)
    (ht : lookupKey d "title" = none)
    (hr : lookupKey d "recipeName" = some v)
    (hd : lookupKey d "directions" = none)
    (hi : lookupKey d "instructions" = some w) :
    lookupKey (ensureFields d) "title" = some Json.null ∧
    lookupKey (ensureFields d) "directions" = some (Json.arr []) ∧
    lookupKey (ensureFields d) "recipeName" = some v ∧
    lookupKey (ensureFields d) "instructions" = some w := by
  unfold ensureFields
  refine ⟨?_, ?_, ?_, ?_⟩
  · rw [lookupKey_backfill_ne _ _ _ _ (by decide),
      lookupKey_backfill_ne _ _ _ _ (by decide),
      lookupKey_backfill_ne _ _ _ _ (by decide),
      lookupKey_backfill_self, ht]
    rfl
  · rw [lookupKey_backfill_ne _ _ _ _ (by decide),
      lookupKey_backfill_self,
      lookupKey_backfill_ne _ _ _ _ (by decide),
      lookupKey_backfill_ne _ _ _ _ (by decide), hd]
    rfl
  · rw [lookupKey_backfill_ne _ _ _ _ (by decide),
      lookupKey_backfill_ne _ _ _ _ (by decide),
      lookupKey_backfill_ne _ _ _ _ (by decide),
      lookupKey_backfill_ne _ _ _ _ (by decide), hr]
  · rw [lookupKey_backfill_ne _ _ _ _ (by decide),
      lookupKey_backfill_ne _ _ _ _ (by decide),
      lookupKey_backfill_ne _ _ _ _ (by decide),
      lookupKey_backfill_ne _ _ _ _ (by decide), hi]

/-- Witness for the amended claim C6 at a concrete dict. -/
theorem claim_C6_amended_witness :
    lookupKey (ensureFields [("recipeName", Json.str "X"),
      ("instructions", Json.arr [])]) "title" = some Json.null ∧
    lookupKey (ensureFields [("recipeName", Json.str "X"),
      ("instructions", Json.arr [])]) "directions" = some (Json.arr []) ∧
    lookupKey (ensureFields [("recipeName", Json.str "X"),
      ("instructions", Json.arr [])]) "recipeName" = some (Json.str "X") ∧
    lookupKey (ensureFields [("recipeName", Json.str "X"),
      ("instructions", Json.arr [])]) "instructions" = some (Json.arr []) :=
  claim_C6_amended _ _ _ rfl rfl rfl rfl

/-- Claim C8 counterexample: the completion text "```5```" is not valid
JSON and contains no brace span, yet the normalizer does not return the
canonical empty record — after fence stripping the payload is "5", which
parses as a JSON integer, and line 293 then raises an `AttributeError`. -/
theorem claim_C8_counterexample :
    loads "```5```" = none ∧
    hasBraceSpan "```5```" = false ∧
    normalizeResponse "```5```" "https://example.com/r8" =
      .error "AI extraction failed: 'int' object has no attribute 'get'" :=
  ⟨rfl, rfl, rfl⟩

/-- Claim C10 (confirmed): whatever the completion, whenever the
normalizer returns a record, its `source_url` is exactly the supplied URL
(line 311 assigns it unconditionally after all parsing and backfill). -/
theorem claim_C10_source_url_overwrites (c u : String) (r : List (String × Json))
    (h : normalizeResponse c u = .ok r) :
    lookupKey r "source_url" = some (Json.str u) := by
  unfold normalizeResponse at h
  split at h
  · rename_i d heq
    injection h with h'
    subst h'
    exact lookupKey_setKey_self _ _ _
  · exact Except.noConfusion h

/-- Witness for claim C10 at a completion whose JSON itself carries a
conflicting `source_url`: the supplied URL wins. -/
theorem claim_C10_witness :
    lookupKey [("source_url", Json.str "https://real.example"),
               ("title", Json.null),
               ("ingredients", Json.arr []),
               ("directions", Json.arr []),
               ("tags", defaultTags)] "source_url" =
      some (Json.str "https://real.example") :=
  claim_C10_source_url_overwrites
    "\x7b\"source_url\":\"https://evil.example\"\x7d" "https://real.example" _ rfl

/-- The fallback loop refines the spec's policy on any non-empty model
list: its result is a function of the per-model outcomes in order. -/
theorem tryModels_eq_specFallback (call : String → Except String String)
    (m : String) (ms : List String) (last : Option String) :
    tryModels call (m :: ms) last = specFallback ((m :: ms).map call) := by
  induction ms generalizing m last with
  | nil =>
    cases h : call m with
    | ok r => simp [tryModels, specFallback, h]
    | error e => simp [tryModels, specFallback, h]
  | cons m' ms' ih =>
    cases h : call m with
    | ok r => simp [tryModels, specFallback, h]
    | error e =>
      by_cases hnf : isNotFoundError e
      · simpa [tryModels, specFallback, h, hnf] using ih m' (some e)
      · simp [tryModels, specFallback, h, hnf]

/-- Claim C2 (confirmed): over the ordered model list of lines 200-205,
the loop of lines 210-229 implements exactly the spec's selection policy
`specFallback`: models are consulted in list order, a "model not found"
error (the `"404" in str(e) or "not_found" in str(e).lower()` class)
advances to the next candidate, any other error is re-raised immediately,
the first success is returned, and when all four fail with "not found"
the raised error wraps the last model's underlying error. -/
theorem claim_C2_model_fallback (call : String → Except String String) :
    tryModels call modelsToTry none = specFallback (modelsToTry.map call) :=
  tryModels_eq_specFallback call "claude-3-5-sonnet-20240620"
    ["claude-3-opus-20240229", "claude-3-sonnet-20240229",
     "claude-3-haiku-20240307"] none

/-- Claim C7 counterexample: for a payload that itself contains a
triple-backtick marker, wrapping it in a fence changes the result — the
`split("```")` of line 236 cuts the payload at its inner marker, the
remnant no longer parses, and the fenced variant falls back to the empty
record while the bare payload parses fine. -/
theorem claim_C7_counterexample :
    lookupKey ((normalizeResponse backtickPayload
        "https://example.com/r7").toOption.getD []) "title" =
      some (Json.str "x```y") ∧
    lookupKey ((normalizeResponse (fencedJson backtickPayload)
        "https://example.com/r7").toOption.getD []) "title" =
      some Json.null ∧
    normalizeResponse (fencedJson backtickPayload) "https://example.com/r7" ≠
      normalizeResponse backtickPayload "https://example.com/r7" := by
  refine ⟨rfl, rfl, fun h => ?_⟩
  have h2 : (some Json.null : Option Json) = some (Json.str "x```y") := by
    calc (some Json.null : Option Json)
        = lookupKey ((normalizeResponse (fencedJson backtickPayload)
            "https://example.com/r7").toOption.getD []) "title" := rfl
      _ = lookupKey ((normalizeResponse backtickPayload
            "https://example.com/r7").toOption.getD []) "title" := by rw [h]
      _ = some (Json.str "x```y") := rfl
  injection h2 with h3
  exact Json.noConfusion h3

/-! ## Fence stripping only ever removes characters

These lemmas drive the amended claim C8: the cleaned response text is a
sublist of the raw completion, so a completion without a `{...}` span
cannot acquire one through cleaning. -/

theorem pyStrip_sublist (cs : List Char) : pyStrip cs <+ cs := by
  have h1 : (cs.dropWhile pyIsSpace).reverse.dropWhile pyIsSpace <+
      (cs.dropWhile pyIsSpace).reverse := List.dropWhile_sublist _
  have h2 : pyStrip cs <+ cs.dropWhile pyIsSpace := by
    have h3 := List.reverse_sublist.mpr h1
    rwa [List.reverse_reverse] at h3
  exact h2.trans (List.dropWhile_sublist _)

/-- Unfolding `splitTicks` at a head that does not start a marker. -/
theorem splitTicks_cons_no_tick (c : Char) (cs : List Char)
    (h : ∀ rest, c = '`' → cs = '`' :: '`' :: rest → False) :
    splitTicks (c :: cs) =
      match splitTicks cs with
      | p :: ps => (c :: p) :: ps
      | [] => [[c]] := by
  rw [splitTicks.eq_def]
  split
  · rename_i x rest heq
    injection heq with h1 h2
    exact (h rest h1 h2).elim
  · rename_i x c2 cs2 hg heq
    injection heq with h1 h2
    subst h1
    subst h2
    rfl
  · rename_i x heq
    exact absurd heq (by simp)

/-- Unfolding `splitTicksJson` at a head that does not start a marker. -/
theorem splitTicksJson_cons_no_tag (c : Char) (cs : List Char)
    (h : ∀ rest, c = '`' →
      cs = '`' :: '`' :: 'j' :: 's' :: 'o' :: 'n' :: rest → False) :
    splitTicksJson (c :: cs) =
      match splitTicksJson cs with
      | p :: ps => (c :: p) :: ps
      | [] => [[c]] := by
  rw [splitTicksJson.eq_def]
  split
  · rename_i x rest heq
    injection heq with h1 h2
    exact (h rest h1 h2).elim
  · rename_i x c2 cs2 hg heq
    injection heq with h1 h2
    subst h1
    subst h2
    rfl
  · rename_i x heq
    exact absurd heq (by simp)

theorem splitTicks_mem_sublist (cs : List Char) :
    ∀ p ∈ splitTicks cs, p <+ cs := by
  induction cs using splitTicks.induct with
  | case1 rest ih =>
    intro p hp
    rw [splitTicks] at hp
    rcases List.mem_cons.mp hp with hp | hp
    · exact hp ▸ List.nil_sublist _
    · exact (ih p hp).trans (List.sublist_append_right ['`', '`', '`'] rest)
  | case2 c cs hguard p0 ps0 heq ih =>
    intro p hp
    rw [splitTicks_cons_no_tick c cs hguard, heq] at hp
    rcases List.mem_cons.mp hp with hp | hp
    · subst hp
      exact List.cons_sublist_cons.mpr (ih p0 (by rw [heq]; exact List.mem_cons_self _ _))
    · exact (ih p (by rw [heq]; exact List.mem_cons_of_mem _ hp)).trans
        (List.sublist_cons_self _ _)
  | case3 c cs hguard heq ih =>
    intro p hp
    rw [splitTicks_cons_no_tick c cs hguard, heq] at hp
    rcases List.mem_cons.mp hp with hp | hp
    · subst hp
      exact List.cons_sublist_cons.mpr (List.nil_sublist _)
    · simp at hp
  | case4 =>
    intro p hp
    rw [splitTicks] at hp
    rcases List.mem_cons.mp hp with hp | hp
    · exact hp ▸ List.Sublist.refl _
    · simp at hp

theorem splitTicks_flatten_sublist (cs : List Char) :
    (splitTicks cs).flatten <+ cs := by
  induction cs using splitTicks.induct with
  | case1 rest ih =>
    rw [splitTicks]
    simp only [List.flatten_cons, List.nil_append]
    exact ih.trans (List.sublist_append_right ['`', '`', '`'] rest)
  | case2 c cs hguard p0 ps0 heq ih =>
    rw [splitTicks_cons_no_tick c cs hguard, heq]
    simp only [List.flatten_cons, List.cons_append]
    refine List.cons_sublist_cons.mpr ?_
    have h4 : p0 ++ ps0.flatten = (splitTicks cs).flatten := by
      rw [heq, List.flatten_cons]
    rw [h4]
    exact ih
  | case3 c cs hguard heq ih =>
    rw [splitTicks_cons_no_tick c cs hguard, heq]
    simp only [List.flatten_cons, List.flatten_nil, List.append_nil]
    exact List.cons_sublist_cons.mpr (List.nil_sublist _)
  | case4 => simp [splitTicks]

theorem splitTicksJson_flatten_sublist (cs : List Char) :
    (splitTicksJson cs).flatten <+ cs := by
  induction cs using splitTicksJson.induct with
  | case1 rest ih =>
    rw [splitTicksJson]
    simp only [List.flatten_cons, List.nil_append]
    exact ih.trans (List.sublist_append_right ['`', '`', '`', 'j', 's', 'o', 'n'] rest)
  | case2 c cs hguard p0 ps0 heq ih =>
    rw [splitTicksJson_cons_no_tag c cs hguard, heq]
    simp only [List.flatten_cons, List.cons_append]
    refine List.cons_sublist_cons.mpr ?_
    have h4 : p0 ++ ps0.flatten = (splitTicksJson cs).flatten := by
      rw [heq, List.flatten_cons]
    rw [h4]
    exact ih
  | case3 c cs hguard heq ih =>
    rw [splitTicksJson_cons_no_tag c cs hguard, heq]
    simp only [List.flatten_cons, List.flatten_nil, List.append_nil]
    exact List.cons_sublist_cons.mpr (List.nil_sublist _)
  | case4 => simp [splitTicksJson]

theorem stripFences_sublist (cs : List Char) : stripFences cs <+ cs := by
  unfold stripFences
  split
  · refine (pyStrip_sublist _).trans ?_
    split
    · rename_i a p c3 t heq
      have hmem : p ∈ splitTicks cs := by
        rw [heq]
        exact List.mem_cons_of_mem _ (List.mem_cons_self _ _)
      split
      · exact (List.drop_sublist _ _).trans (splitTicks_mem_sublist cs p hmem)
      · exact splitTicks_mem_sublist cs p hmem
    · exact (splitTicks_flatten_sublist _).trans (splitTicksJson_flatten_sublist cs)
  · exact List.Sublist.refl _

theorem cleanResponse_sublist (s : String) : cleanResponse s <+ s.data :=
  (stripFences_sublist _).trans (pyStrip_sublist _)

/-! ## The brace-span search is monotone under sublists -/

theorem dropWhile_eq_cons_head (p : Char → Bool) (l : List Char) (c : Char)
    (t : List Char) (h : l.dropWhile p = c :: t) : p c = false ∧ c ∈ l := by
  induction l with
  | nil => simp [List.dropWhile] at h
  | cons a l' ih =>
    rw [List.dropWhile_cons] at h
    split at h
    · obtain ⟨h1, h2⟩ := ih h
      exact ⟨h1, List.mem_cons_of_mem _ h2⟩
    · rename_i hpa
      injection h with h1 h2
      subst h1
      exact ⟨by simpa using hpa, List.mem_cons_self _ _⟩

theorem braceSpan_isSome_pair (cs : List Char)
    (h : (braceSpan cs).isSome) : ['{', '}'] <+ cs := by
  unfold braceSpan at h
  split at h
  · simp at h
  · rename_i c t hrt
    split at h
    · simp at h
    · rename_i a1 span hne
      obtain ⟨hr1, _⟩ := dropWhile_eq_cons_head _ _ _ _ hrt
      have hrc : c = '{' := by simpa using hr1
      subst hrc
      have hD : t.reverse.dropWhile (fun c => decide (c ≠ '}')) ≠ [] := by
        intro hnil
        apply hne
        rw [hnil]
        rfl
      obtain ⟨d, dt, hdt⟩ := List.exists_cons_of_ne_nil hD
      obtain ⟨hd1, hd2⟩ := dropWhile_eq_cons_head _ _ _ _ hdt
      have hdc : d = '}' := by simpa using hd1
      subst hdc
      have hmemt : '}' ∈ t := List.mem_reverse.mp hd2
      have hpair : ['{', '}'] <+ '{' :: t :=
        List.cons_sublist_cons.mpr (List.singleton_sublist.mpr hmemt)
      calc ['{', '}'] <+ '{' :: t := hpair
        _ = cs.dropWhile (fun c => c ≠ '{') := hrt.symm
        _ <+ cs := List.dropWhile_sublist _

theorem braceSpan_cons_ne (c : Char) (cs : List Char) (hc : ¬ c = '{') :
    braceSpan (c :: cs) = braceSpan cs := by
  unfold braceSpan
  rw [List.dropWhile_cons_of_pos (by simpa using hc)]

theorem braceSpan_open_isSome (cs : List Char) (h : '}' ∈ cs) :
    (braceSpan ('{' :: cs)).isSome := by
  unfold braceSpan
  rw [List.dropWhile_cons_of_neg (by simp)]
  have hD : cs.reverse.dropWhile (fun c => decide (c ≠ '}')) ≠ [] := by
    rw [Ne, List.dropWhile_eq_nil_iff]
    intro hall
    have := hall '}' (List.mem_reverse.mpr h)
    simp at this
  have hrev : (cs.reverse.dropWhile (fun c => decide (c ≠ '}'))).reverse ≠ [] := by
    simpa using hD
  obtain ⟨d, dt, hdt⟩ := List.exists_cons_of_ne_nil hrev
  show (match (cs.reverse.dropWhile (fun c => decide (c ≠ '}'))).reverse with
        | [] => none
        | span => some ('{' :: span)).isSome = true
  rw [hdt]
  rfl

theorem pair_sublist_braceSpan (cs : List Char) (h : ['{', '}'] <+ cs) :
    (braceSpan cs).isSome := by
  induction cs with
  | nil => simp at h
  | cons c cs ih =>
    cases h with
    | cons _ h' =>
      by_cases hc : c = '{'
      · subst hc
        exact braceSpan_open_isSome cs (h'.subset (by simp))
      · rw [braceSpan_cons_ne c cs hc]
        exact ih h'
    | cons₂ _ h' =>
      exact braceSpan_open_isSome cs (List.singleton_sublist.mp h')

/-- No `{...}` span survives passing to a sublist. -/
theorem braceSpan_none_of_sublist (cs' cs : List Char) (hsub : cs' <+ cs)
    (hn : braceSpan cs = none) : braceSpan cs' = none := by
  cases hq : braceSpan cs' with
  | none => rfl
  | some sp =>
    have hpair := braceSpan_isSome_pair cs' (by rw [hq]; rfl)
    have := pair_sublist_braceSpan cs (hpair.trans hsub)
    rw [hn] at this
    simp at this

/-- Claim C8 as amended: for every completion whose cleaned payload (after
strip and fence removal) is not valid JSON and which contains no `{...}`
span, the normalizer returns the canonical empty record with only
`source_url` set, and raises no error.  (As literally stated the claim is
false — see the counterexample: a completion that is not valid JSON as a
whole may still have a cleaned payload that parses, and a non-object
payload makes line 293 raise.) -/
theorem claim_C8_amended (c u : String)
    (h1 : loadsList (cleanResponse c) = none)
    (h2 : hasBraceSpan c = false) :
    normalizeResponse c u =
      .ok [("title", Json.null), ("ingredients", Json.arr []),
           ("directions", Json.arr []), ("cooking_time", Json.null),
           ("servings", Json.null), ("tags", defaultTags),
           ("source_url", Json.str u)] := by
  have hb0 : braceSpan c.data = none := by
    unfold hasBraceSpan at h2
    cases hq : braceSpan c.data with
    | none => rfl
    | some sp => rw [hq] at h2; simp at h2
  have hb : braceSpan (cleanResponse c) = none :=
    braceSpan_none_of_sublist _ _ (cleanResponse_sublist c) hb0
  have hp : parseRepair (cleanResponse c) = .obj emptyRecipe := by
    unfold parseRepair
    rw [h1, hb]
  unfold normalizeResponse
  rw [hp]
  rfl

/-- Witness for the amended claim C8 at a concrete garbled completion. -/
theorem claim_C8_amended_witness :
    normalizeResponse "no recipe here" "https://example.com" =
      .ok [("title", Json.null), ("ingredients", Json.arr []),
           ("directions", Json.arr []), ("cooking_time", Json.null),
           ("servings", Json.null), ("tags", defaultTags),
           ("source_url", Json.str "https://example.com")] :=
  claim_C8_amended "no recipe here" "https://example.com" rfl rfl

/-! ## Machinery for the amended claim C7 -/

theorem containsSeq_eq_true_iff_isInfix (pat l : List Char) :
    containsSeq pat l = true ↔ pat <:+: l := by
  induction l with
  | nil =>
    show pat.isEmpty = true ↔ _
    rw [List.isEmpty_iff, List.infix_nil]
  | cons c cs ih =>
    show (pat.isPrefixOf (c :: cs) || containsSeq pat cs) = true ↔ _
    rw [Bool.or_eq_true, List.isPrefixOf_iff_prefix, ih, List.infix_cons_iff]

theorem ticks_infix_drop_left (pre rest : List Char)
    (hpre : ∀ x ∈ pre, x ≠ '`') (h : ticks <:+: pre ++ rest) :
    ticks <:+: rest := by
  induction pre with
  | nil => simpa using h
  | cons c pre' ih =>
    rw [List.cons_append, List.infix_cons_iff] at h
    rcases h with h | h
    · exfalso
      obtain ⟨t, ht⟩ := h
      have ht' : '`' :: '`' :: '`' :: t = c :: (pre' ++ rest) := ht
      injection ht' with h1 _
      exact hpre c (List.mem_cons_self _ _) h1.symm
    · exact ih (fun x hx => hpre x (List.mem_cons_of_mem _ hx)) h

theorem ticks_infix_drop_right (rest suf : List Char)
    (hsuf : ∀ x ∈ suf, x ≠ '`') (h : ticks <:+: rest ++ suf) :
    ticks <:+: rest := by
  have htr : ticks.reverse = ticks := rfl
  have h1 : ticks <:+: suf.reverse ++ rest.reverse := by
    have h2 := h.reverse
    rw [List.reverse_append, htr] at h2
    exact h2
  have h3 := (ticks_infix_drop_left suf.reverse rest.reverse
    (fun x hx => hsuf x (List.mem_reverse.mp hx)) h1).reverse
  rw [List.reverse_reverse, htr] at h3
  exact h3

theorem splitTicks_tick_head (X : List Char) :
    splitTicks ('`' :: '`' :: '`' :: X) = [] :: splitTicks X := by
  rw [splitTicks]

/-- Python `split("```")` of a marker-free chunk followed by one marker. -/
theorem splitTicks_append_ticks (mid : List Char)
    (hni : ¬ ticks <:+: mid) (hlast : mid.getLast? ≠ some '`') :
    splitTicks (mid ++ ticks) = [mid, []] := by
  induction mid with
  | nil =>
    show splitTicks ('`' :: '`' :: '`' :: []) = [[], []]
    rw [splitTicks_tick_head, splitTicks]
  | cons c mid' ih =>
    have hguard : ∀ rest, c = '`' → mid' ++ ticks = '`' :: '`' :: rest → False := by
      intro rest hc hrest
      subst hc
      rcases mid' with _ | ⟨d, _ | ⟨e, mid''⟩⟩
      · exact hlast rfl
      · have hrest' : d :: '`' :: '`' :: '`' :: ([] : List Char) = '`' :: '`' :: rest := hrest
        injection hrest' with h1 _
        subst h1
        exact hlast rfl
      · have hrest' : d :: e :: (mid'' ++ ticks) = '`' :: '`' :: rest := hrest
        injection hrest' with h1 h2
        injection h2 with h2 _
        subst h1
        subst h2
        exact hni ⟨[], mid'', by rfl⟩
    rw [List.cons_append, splitTicks_cons_no_tick c _ hguard]
    rcases mid' with _ | ⟨d, mid''⟩
    · rw [show (([] : List Char) ++ ticks) = '`' :: '`' :: '`' :: [] from rfl,
        splitTicks_tick_head, splitTicks]
    · have hni' : ¬ ticks <:+: d :: mid'' := fun hx =>
        hni (hx.trans ⟨[c], [], by simp⟩)
      have hlast' : (d :: mid'').getLast? ≠ some '`' := by
        rwa [List.getLast?_cons_cons] at hlast
      rw [ih hni' hlast']

theorem dropWhile_eq_self_of_head (p : Char → Bool) (cs : List Char)
    (h : ∀ c, cs.head? = some c → p c = false) : cs.dropWhile p = cs := by
  cases cs with
  | nil => rfl
  | cons a l => exact List.dropWhile_cons_of_neg (by simp [h a rfl])

/-- `str.strip()` is the identity when both ends are non-whitespace. -/
theorem pyStrip_eq_self (cs : List Char)
    (h1 : ∀ c, cs.head? = some c → pyIsSpace c = false)
    (h2 : ∀ c, cs.getLast? = some c → pyIsSpace c = false) :
    pyStrip cs = cs := by
  unfold pyStrip
  rw [dropWhile_eq_self_of_head _ _ h1,
    dropWhile_eq_self_of_head _ _ (fun c hc => h2 c (by rwa [List.head?_reverse] at hc)),
    List.reverse_reverse]

/-- `str.strip()` ignores a newline added on each side. -/
theorem pyStrip_nl_wrap (l : List Char) :
    pyStrip ('\n' :: (l ++ ['\n'])) = pyStrip l := by
  unfold pyStrip
  rw [List.dropWhile_cons_of_pos (by decide), List.dropWhile_append]
  split
  · rename_i hemp
    have h0 : l.dropWhile pyIsSpace = [] := by simpa [List.isEmpty_iff] using hemp
    rw [h0]
    decide
  · rename_i hemp
    rw [List.reverse_append, show (['\n'] : List Char).reverse = ['\n'] from rfl,
      List.singleton_append, List.dropWhile_cons_of_pos (by decide)]

theorem pyStrip_isInfix (cs : List Char) : pyStrip cs <:+: cs := by
  rw [List.infix_iff_prefix_suffix]
  refine ⟨cs.dropWhile pyIsSpace, ?_, List.dropWhile_suffix _⟩
  have h := List.reverse_prefix.mpr
    (List.dropWhile_suffix (l := (cs.dropWhile pyIsSpace).reverse) pyIsSpace)
  rwa [List.reverse_reverse] at h

/-- The cleaned text of a `json`-tagged fenced completion equals the
stripped payload, provided the payload contains no fence marker. -/
theorem cleanResponse_fencedJson (p : String) (hp : ¬ ticks <:+: p.data) :
    cleanResponse (fencedJson p) = pyStrip p.data := by
  have hni : ¬ ticks <:+: 'j' :: 's' :: 'o' :: 'n' :: '\n' :: (p.data ++ ['\n']) := by
    intro hx
    have h1 : ticks <:+: p.data ++ ['\n'] :=
      ticks_infix_drop_left ['j', 's', 'o', 'n', '\n'] _ (by decide) hx
    exact hp (ticks_infix_drop_right _ ['\n'] (by decide) h1)
  have hlast : ('j' :: 's' :: 'o' :: 'n' :: '\n' :: (p.data ++ ['\n'])).getLast? ≠
      some '`' := by
    show (('j' :: 's' :: 'o' :: 'n' :: '\n' :: p.data) ++ ['\n']).getLast? ≠ some '`'
    rw [List.getLast?_concat]
    simp
  have hdata : (fencedJson p).data =
      '`' :: '`' :: '`' ::
        (('j' :: 's' :: 'o' :: 'n' :: '\n' :: (p.data ++ ['\n'])) ++ ticks) := by
    show ("```json\n" ++ p ++ "\n```").data = _
    rw [String.data_append, String.data_append]
    show '`' :: '`' :: '`' :: 'j' :: 's' :: 'o' :: 'n' :: '\n' ::
      (p.data ++ ['\n', '`', '`', '`']) = _
    rw [show (('j' :: 's' :: 'o' :: 'n' :: '\n' :: (p.data ++ ['\n'])) ++ ticks) =
      'j' :: 's' :: 'o' :: 'n' :: '\n' :: ((p.data ++ ['\n']) ++ ticks) from rfl,
      List.append_assoc]
    rfl
  have hstrip : pyStrip ((fencedJson p).data) = (fencedJson p).data := by
    refine pyStrip_eq_self _ ?_ ?_
    · intro c hc
      rw [hdata] at hc
      injection hc with hc
      subst hc
      rfl
    · intro c hc
      rw [hdata] at hc
      rw [show ('`' :: '`' :: '`' ::
          (('j' :: 's' :: 'o' :: 'n' :: '\n' :: (p.data ++ ['\n'])) ++ ticks)) =
          (('`' :: '`' :: '`' :: 'j' :: 's' :: 'o' :: 'n' :: '\n' ::
            (p.data ++ ['\n'])) ++ ticks) from rfl, List.getLast?_append] at hc
      injection hc with hc
      subst hc
      rfl
  have hsplit : splitTicks ((fencedJson p).data) =
      [[], 'j' :: 's' :: 'o' :: 'n' :: '\n' :: (p.data ++ ['\n']), []] := by
    rw [hdata, splitTicks_tick_head, splitTicks_append_ticks _ hni hlast]
  show stripFences (pyStrip ((fencedJson p).data)) = pyStrip p.data
  rw [hstrip]
  unfold stripFences
  rw [if_pos (show ticks.isPrefixOf ((fencedJson p).data) = true by rw [hdata]; rfl)]
  rw [hsplit]
  show pyStrip (('j' :: 's' :: 'o' :: 'n' :: '\n' :: (p.data ++ ['\n'])).drop 4) =
    pyStrip p.data
  show pyStrip ('\n' :: (p.data ++ ['\n'])) = pyStrip p.data
  exact pyStrip_nl_wrap p.data

/-- The cleaned text of an untagged fenced completion equals the stripped
payload, provided the payload contains no fence marker. -/
theorem cleanResponse_fencedPlain (p : String) (hp : ¬ ticks <:+: p.data) :
    cleanResponse (fencedPlain p) = pyStrip p.data := by
  have hni : ¬ ticks <:+: '\n' :: (p.data ++ ['\n']) := by
    intro hx
    have h1 : ticks <:+: p.data ++ ['\n'] :=
      ticks_infix_drop_left ['\n'] _ (by decide) hx
    exact hp (ticks_infix_drop_right _ ['\n'] (by decide) h1)
  have hlast : ('\n' :: (p.data ++ ['\n'])).getLast? ≠ some '`' := by
    show (('\n' :: p.data) ++ ['\n']).getLast? ≠ some '`'
    rw [List.getLast?_concat]
    simp
  have hdata : (fencedPlain p).data =
      '`' :: '`' :: '`' :: (('\n' :: (p.data ++ ['\n'])) ++ ticks) := by
    show ("```\n" ++ p ++ "\n```").data = _
    rw [String.data_append, String.data_append]
    show '`' :: '`' :: '`' :: '\n' :: (p.data ++ ['\n', '`', '`', '`']) = _
    rw [show (('\n' :: (p.data ++ ['\n'])) ++ ticks) =
      '\n' :: ((p.data ++ ['\n']) ++ ticks) from rfl, List.append_assoc]
    rfl
  have hstrip : pyStrip ((fencedPlain p).data) = (fencedPlain p).data := by
    refine pyStrip_eq_self _ ?_ ?_
    · intro c hc
      rw [hdata] at hc
      injection hc with hc
      subst hc
      rfl
    · intro c hc
      rw [hdata] at hc
      rw [show ('`' :: '`' :: '`' :: (('\n' :: (p.data ++ ['\n'])) ++ ticks)) =
          (('`' :: '`' :: '`' :: '\n' :: (p.data ++ ['\n'])) ++ ticks) from rfl,
        List.getLast?_append] at hc
      injection hc with hc
      subst hc
      rfl
  have hsplit : splitTicks ((fencedPlain p).data) =
      [[], '\n' :: (p.data ++ ['\n']), []] := by
    rw [hdata, splitTicks_tick_head, splitTicks_append_ticks _ hni hlast]
  show stripFences (pyStrip ((fencedPlain p).data)) = pyStrip p.data
  rw [hstrip]
  unfold stripFences
  rw [if_pos (show ticks.isPrefixOf ((fencedPlain p).data) = true by rw [hdata]; rfl)]
  rw [hsplit]
  show pyStrip (if jsonTag.isPrefixOf ('\n' :: (p.data ++ ['\n'])) then
    ('\n' :: (p.data ++ ['\n'])).drop 4 else '\n' :: (p.data ++ ['\n'])) = pyStrip p.data
  rw [if_neg (show ¬ (jsonTag.isPrefixOf ('\n' :: (p.data ++ ['\n'])) = true) by
    rw [List.isPrefixOf_iff_prefix]
    intro hpre
    obtain ⟨t, ht⟩ := hpre
    have ht' : 'j' :: 's' :: 'o' :: 'n' :: t = '\n' :: (p.data ++ ['\n']) := ht
    injection ht' with h1 _
    exact absurd h1 (by decide))]
  exact pyStrip_nl_wrap p.data

/-- Without a leading fence marker the cleaning step is just the strip. -/
theorem cleanResponse_no_fence (p : String) (hp : ¬ ticks <:+: p.data) :
    cleanResponse p = pyStrip p.data := by
  show stripFences (pyStrip p.data) = pyStrip p.data
  unfold stripFences
  rw [if_neg (show ¬ (ticks.isPrefixOf (pyStrip p.data) = true) by
    rw [List.isPrefixOf_iff_prefix]
    intro hpre
    exact hp (hpre.isInfix.trans (pyStrip_isInfix p.data)))]

/-- Claim C7 as amended: for every payload that does not itself contain a
triple-backtick marker, the normalizer maps the fenced completion (with or
without the `json` tag) to the same record as the bare payload.  (As
literally stated — for every payload — the claim is false; see
the counterexample.) -/
theorem claim_C7_amended (p u : String)
    (h : containsSeq ticks p.data = false) :
    normalizeResponse (fencedJson p) u = normalizeResponse p u ∧
    normalizeResponse (fencedPlain p) u = normalizeResponse p u := by
  have hp : ¬ ticks <:+: p.data := by
    intro hx
    have h2 := (containsSeq_eq_true_iff_isInfix ticks p.data).mpr hx
    rw [h] at h2
    exact Bool.noConfusion h2
  constructor
  · unfold normalizeResponse
    rw [cleanResponse_fencedJson p hp, cleanResponse_no_fence p hp]
  · unfold normalizeResponse
    rw [cleanResponse_fencedPlain p hp, cleanResponse_no_fence p hp]

/-- Witness for the amended claim C7 at a concrete marker-free payload. -/
theorem claim_C7_amended_witness :
    normalizeResponse (fencedJson "\x7b\"a\":1\x7d") "https://example.com/w7" =
      normalizeResponse "\x7b\"a\":1\x7d" "https://example.com/w7" ∧
    normalizeResponse (fencedPlain "\x7b\"a\":1\x7d") "https://example.com/w7" =
      normalizeResponse "\x7b\"a\":1\x7d" "https://example.com/w7" :=
  claim_C7_amended "\x7b\"a\":1\x7d" "https://example.com/w7" rfl

/-! ## Serialise-then-parse round trip

The lemmas below show that `loadsList` recovers any well-formed JSON value
from its `dumpsVal` serialisation; claim C9 (idempotence of the
Normalizer) follows. -/

theorem hexVal_hexDig : ∀ k, k < 16 → hexVal (hexDig k) = some k := by decide

theorem parseStrChars_escape (l : List Char) :
    ∀ f rest, ((l.map escapeChar).flatten).length < f →
      parseStrChars f ((l.map escapeChar).flatten ++ '"' :: rest) = some (l, rest) := by
  induction l with
  | nil =>
    intro f rest hf
    cases f with
    | zero => simp at hf
    | succ f' => simp [parseStrChars]
  | cons c l' ih =>
    intro f rest hf
    rw [List.map_cons, List.flatten_cons] at hf ⊢
    rw [List.append_assoc]
    by_cases hq : c = '"'
    · subst hq
      cases f with
      | zero => simp at hf
      | succ f' =>
        have hlen : ((l'.map escapeChar).flatten).length < f' := by
          simp only [List.length_append, show (escapeChar '"').length = 2 from rfl] at hf
          omega
        have hih := ih f' rest hlen
        simp only [show escapeChar '"' = ['\\', '"'] from rfl]
        simp [parseStrChars, hih]
    · by_cases hb : c = '\\'
      · subst hb
        cases f with
        | zero => simp at hf
        | succ f' =>
          have hlen : ((l'.map escapeChar).flatten).length < f' := by
            simp only [List.length_append, show (escapeChar '\\').length = 2 from rfl] at hf
            omega
          have hih := ih f' rest hlen
          simp only [show escapeChar '\\' = ['\\', '\\'] from rfl]
          simp [parseStrChars, hih]
      · by_cases hc : c.toNat < 0x20
        · have hesc : escapeChar c = '\\' :: 'u' :: hex4 c.toNat := by
            simp [escapeChar, hq, hb, hc]
          cases f with
          | zero => simp at hf
          | succ f' =>
            have hlen : ((l'.map escapeChar).flatten).length < f' := by
              rw [List.length_append, hesc] at hf
              simp only [List.length_cons, show (hex4 c.toNat).length = 4 from rfl] at hf
              omega
            have hih := ih f' rest hlen
            rw [hesc]
            show parseStrChars (f' + 1) ('\\' :: 'u' :: hexDig (c.toNat / 4096 % 16) ::
              hexDig (c.toNat / 256 % 16) :: hexDig (c.toNat / 16 % 16) ::
              hexDig (c.toNat % 16) :: ((l'.map escapeChar).flatten ++ '"' :: rest)) =
              some (c :: l', rest)
            have e1 := hexVal_hexDig (c.toNat / 4096 % 16) (Nat.mod_lt _ (by omega))
            have e2 := hexVal_hexDig (c.toNat / 256 % 16) (Nat.mod_lt _ (by omega))
            have e3 := hexVal_hexDig (c.toNat / 16 % 16) (Nat.mod_lt _ (by omega))
            have e4 := hexVal_hexDig (c.toNat % 16) (Nat.mod_lt _ (by omega))
            have hn : ((c.toNat / 4096 % 16 * 16 + c.toNat / 256 % 16) * 16 +
                c.toNat / 16 % 16) * 16 + c.toNat % 16 = c.toNat := by
              omega
            have hsur : ¬ (0xd800 ≤ c.toNat ∧ c.toNat < 0xe000) := by omega
            simp [parseStrChars, e1, e2, e3, e4, hn, hsur, hih]
        · have hesc : escapeChar c = [c] := by
            simp [escapeChar, hq, hb, hc]
          cases f with
          | zero => simp at hf
          | succ f' =>
            have hlen : ((l'.map escapeChar).flatten).length < f' := by
              rw [hesc] at hf
              simp only [List.singleton_append, List.length_cons] at hf
              omega
            have hih := ih f' rest hlen
            rw [hesc]
            simp [parseStrChars, hq, hb, hc, hih]

theorem parseNum_roundtrip (l : List Char) (h1 : validNum l = true)
    (h2 : l.all numChar = true) (rest : List Char) (hb : numBoundary rest = true) :
    parseNum (l ++ rest) = some (.num ⟨l⟩, rest) := by
  have hall : ∀ a ∈ l, numChar a = true := fun a ha => List.all_eq_true.mp h2 a ha
  have ht : (l ++ rest).takeWhile numChar = l := by
    rw [List.takeWhile_append_of_pos hall]
    cases rest with
    | nil => simp
    | cons c t =>
      have hc : numChar c = false := by
        unfold numBoundary at hb
        simpa using hb
      simp [List.takeWhile_cons, hc]
  unfold parseNum
  simp only [ht, h1, if_true]
  rw [List.drop_left]

theorem validNum_head (l : List Char) (h : validNum l = true) :
    ∃ c t, l = c :: t ∧ (c = '-' ∨ c.isDigit = true) := by
  cases l with
  | nil => exact absurd h (by decide)
  | cons c t =>
    refine ⟨c, t, rfl, ?_⟩
    by_cases hc : c = '-'
    · exact Or.inl hc
    · right
      simp only [validNum] at h
      rw [if_neg hc] at h
      simp only [intRestEnd] at h
      by_cases h0 : c = '0'
      · subst h0
        decide
      · rw [if_neg h0] at h
        exact ((Bool.and_eq_true _ _).mp h).1

theorem numHead_facts (c : Char) (h : c = '-' ∨ c.isDigit = true) :
    c ≠ '"' ∧ c ≠ '[' ∧ c ≠ '{' ∧ c ≠ 'n' ∧ c ≠ 't' ∧ c ≠ 'f' ∧
      isJsonWs c = false ∧ c ≠ ']' := by
  rcases h with h | h
  · subst h
    refine ⟨by decide, by decide, by decide, by decide, by decide, by decide,
      by decide, by decide⟩
  · have hx : ∀ d : Char, Char.isDigit d = false → c ≠ d := by
      intro d hd he
      subst he
      rw [h] at hd
      exact Bool.noConfusion hd
    have hws : isJsonWs c = false := by
      have h1 := hx ' ' (by decide)
      have h2 := hx '\t' (by decide)
      have h3 := hx '\n' (by decide)
      have h4 := hx '\r' (by decide)
      simp [isJsonWs, h1, h2, h3, h4]
    exact ⟨hx '"' (by decide), hx '[' (by decide), hx '{' (by decide),
      hx 'n' (by decide), hx 't' (by decide), hx 'f' (by decide), hws,
      hx ']' (by decide)⟩

theorem dumpsVal_head_facts (v : Json) (h : WfJ v) :
    ∃ c t, dumpsVal v = c :: t ∧ isJsonWs c = false ∧ c ≠ ']' := by
  cases h with
  | null => exact ⟨'n', _, rfl, by decide, by decide⟩
  | bool b =>
    cases b
    · exact ⟨'f', _, rfl, by decide, by decide⟩
    · exact ⟨'t', _, rfl, by decide, by decide⟩
  | num l h1 h2 =>
    obtain ⟨c, t, hl, hc⟩ := validNum_head l.data h1
    obtain ⟨_, _, _, _, _, _, hws, hne⟩ := numHead_facts c hc
    exact ⟨c, t, by rw [show dumpsVal (.num l) = l.data from rfl, hl], hws, hne⟩
  | str s => exact ⟨'"', _, rfl, by decide, by decide⟩
  | arr xs hmem => exact ⟨'[', _, rfl, by decide, by decide⟩
  | obj kvs hk hmem => exact ⟨'{', _, rfl, by decide, by decide⟩

theorem skipWs_dumps (v : Json) (h : WfJ v) (rest : List Char) :
    skipWs (dumpsVal v ++ rest) = dumpsVal v ++ rest := by
  obtain ⟨c, t, hd, hws, _⟩ := dumpsVal_head_facts v h
  rw [hd]
  show skipWs (c :: (t ++ rest)) = _
  unfold skipWs
  rw [List.dropWhile_cons_of_neg (by simp [hws])]
  rfl

theorem dumpsElems_head (y : Json) (ys : List Json) (h : WfJ y) :
    ∃ c t, dumpsElems (y :: ys) = c :: t ∧ isJsonWs c = false ∧ c ≠ ']' := by
  obtain ⟨c, t, hd, hws, hne⟩ := dumpsVal_head_facts y h
  cases ys with
  | nil => exact ⟨c, t, hd, hws, hne⟩
  | cons z zs =>
    exact ⟨c, t ++ ',' :: dumpsElems (z :: zs),
      by rw [show dumpsElems (y :: z :: zs) =
        dumpsVal y ++ ',' :: dumpsElems (z :: zs) from rfl, hd]; rfl, hws, hne⟩

theorem dumpsMembers_head (k : String) (v : Json) (kvs : List (String × Json)) :
    ∃ t, dumpsMembers ((k, v) :: kvs) = '"' :: t := by
  cases kvs with
  | nil => exact ⟨_, rfl⟩
  | cons kv kvs' => exact ⟨_, rfl⟩

theorem parseElems_dumps (xs : List Json) (hxs : xs ≠ [])
    (hIH : ∀ x ∈ xs, ∀ f rest, (dumpsVal x).length < f → numBoundary rest = true →
      parseVal f (dumpsVal x ++ rest) = some (x, rest))
    (hwf : ∀ x ∈ xs, WfJ x) :
    ∀ f rest, (dumpsElems xs).length + 1 < f →
      parseElems f (dumpsElems xs ++ ']' :: rest) = some (xs, rest) := by
  induction xs with
  | nil => exact absurd rfl hxs
  | cons x xs ih =>
    intro f rest hf
    cases f with
    | zero => omega
    | succ f' =>
      cases xs with
      | nil =>
        rw [show dumpsElems [x] = dumpsVal x from rfl] at hf ⊢
        rw [parseElems,
          hIH x (by simp) f' (']' :: rest) (by omega) rfl]
        simp [skipWs, List.dropWhile_cons, isJsonWs]
      | cons y ys =>
        rw [show dumpsElems (x :: y :: ys) =
          dumpsVal x ++ ',' :: dumpsElems (y :: ys) from rfl] at hf ⊢
        rw [List.append_assoc, List.cons_append]
        rw [parseElems,
          hIH x (by simp) f'
            (',' :: (dumpsElems (y :: ys) ++ ']' :: rest))
            (by simp at hf ⊢; omega) rfl]
        obtain ⟨c, t, hd, hws, _⟩ := dumpsElems_head y ys (hwf y (by simp))
        have hskip : List.dropWhile isJsonWs (dumpsElems (y :: ys) ++ ']' :: rest) =
            dumpsElems (y :: ys) ++ ']' :: rest := by
          rw [hd]
          show List.dropWhile isJsonWs (c :: (t ++ ']' :: rest)) = _
          rw [List.dropWhile_cons_of_neg (by simp [hws])]
          rfl
        have hrec := ih (by simp)
          (fun z hz => hIH z (by simp [hz]))
          (fun z hz => hwf z (by simp [hz]))
          f' rest (by simp at hf ⊢; omega)
        simp [skipWs, List.dropWhile_cons, isJsonWs, hskip, hrec]

theorem parseMembers_dumps (kvs : List (String × Json)) (hne : kvs ≠ [])
    (hIH : ∀ kv ∈ kvs, ∀ f rest, (dumpsVal kv.2).length < f → numBoundary rest = true →
      parseVal f (dumpsVal kv.2 ++ rest) = some (kv.2, rest))
    (hwf : ∀ kv ∈ kvs, WfJ kv.2) :
    ∀ f rest acc, (dumpsMembers kvs).length + 1 < f →
      parseMembers f (dumpsMembers kvs ++ '}' :: rest) acc =
        some (kvs.foldl (fun a kv => setKey a kv.1 kv.2) acc, rest) := by
  induction kvs with
  | nil => exact absurd rfl hne
  | cons kv kvs ih =>
    obtain ⟨k, v⟩ := kv
    intro f rest acc hf
    cases f with
    | zero => omega
    | succ f' =>
      cases kvs with
      | nil =>
        rw [show dumpsMembers [(k, v)] = escapeStr k ++ ':' :: dumpsVal v from rfl] at hf ⊢
        have hr0 : (escapeStr k ++ ':' :: dumpsVal v) ++ '}' :: rest =
            '"' :: ((k.data.map escapeChar).flatten ++
              '"' :: (':' :: (dumpsVal v ++ '}' :: rest))) := by
          rw [show escapeStr k =
            '"' :: ((k.data.map escapeChar).flatten ++ ['"']) from rfl]
          simp
        rw [hr0, parseMembers,
          parseStrChars_escape k.data (f' + 1) (':' :: (dumpsVal v ++ '}' :: rest))
            (by simp [escapeStr] at hf ⊢; omega)]
        have hv := hIH (k, v) (by simp) f' ('}' :: rest)
          (by simp [escapeStr] at hf ⊢; omega) rfl
        have hskip : List.dropWhile isJsonWs (dumpsVal v ++ '}' :: rest) =
            dumpsVal v ++ '}' :: rest := by
          have := skipWs_dumps v (hwf (k, v) (by simp)) ('}' :: rest)
          simpa [skipWs] using this
        simp [skipWs, List.dropWhile_cons, isJsonWs, hskip, hv]
      | cons kv2 kvs' =>
        rw [show dumpsMembers ((k, v) :: kv2 :: kvs') =
          escapeStr k ++ (':' :: dumpsVal v) ++
            (',' :: dumpsMembers (kv2 :: kvs')) from rfl] at hf ⊢
        have hr0 : ((escapeStr k ++ (':' :: dumpsVal v) ++
            (',' :: dumpsMembers (kv2 :: kvs')))) ++ '}' :: rest =
            '"' :: ((k.data.map escapeChar).flatten ++
              '"' :: (':' :: (dumpsVal v ++
                ',' :: (dumpsMembers (kv2 :: kvs') ++ '}' :: rest)))) := by
          rw [show escapeStr k =
            '"' :: ((k.data.map escapeChar).flatten ++ ['"']) from rfl]
          simp
        rw [hr0, parseMembers,
          parseStrChars_escape k.data (f' + 1)
            (':' :: (dumpsVal v ++ ',' :: (dumpsMembers (kv2 :: kvs') ++ '}' :: rest)))
            (by simp [escapeStr] at hf ⊢; omega)]
        have hv := hIH (k, v) (by simp) f'
          (',' :: (dumpsMembers (kv2 :: kvs') ++ '}' :: rest))
          (by simp [escapeStr] at hf ⊢; omega) rfl
        have hskip : List.dropWhile isJsonWs
            (dumpsVal v ++ ',' :: (dumpsMembers (kv2 :: kvs') ++ '}' :: rest)) =
            dumpsVal v ++ ',' :: (dumpsMembers (kv2 :: kvs') ++ '}' :: rest) := by
          have := skipWs_dumps v (hwf (k, v) (by simp))
            (',' :: (dumpsMembers (kv2 :: kvs') ++ '}' :: rest))
          simpa [skipWs] using this
        obtain ⟨t0, ht0⟩ := dumpsMembers_head kv2.1 kv2.2 kvs'
        have hskip2 : List.dropWhile isJsonWs
            (dumpsMembers (kv2 :: kvs') ++ '}' :: rest) =
            dumpsMembers (kv2 :: kvs') ++ '}' :: rest := by
          rw [show (kv2.1, kv2.2) = kv2 from rfl] at ht0
          rw [ht0]
          show List.dropWhile isJsonWs ('"' :: (t0 ++ '}' :: rest)) = _
          rw [List.dropWhile_cons_of_neg (by decide)]
          rfl
        have hrec := ih (by simp)
          (fun z hz => hIH z (by simp [hz]))
          (fun z hz => hwf z (by simp [hz]))
          f' rest (setKey acc k v) (by simp [escapeStr] at hf ⊢; omega)
        simp [skipWs, List.dropWhile_cons, isJsonWs, hskip, hskip2, hv, hrec]

theorem lookupKey_append_none (d1 d2 : List (String × Json)) (k : String)
    (h : lookupKey d1 k = none) : lookupKey (d1 ++ d2) k = lookupKey d2 k := by
  induction d1 with
  | nil => rfl
  | cons kv d1 ih =>
    obtain ⟨k', v'⟩ := kv
    by_cases hk : k' = k
    · simp [lookupKey, hk] at h
    · simp only [lookupKey, hk, if_false] at h
      show lookupKey ((k', v') :: (d1 ++ d2)) k = _
      simp only [lookupKey, hk, if_false]
      exact ih h

theorem setKey_of_lookup_none (d : List (String × Json)) (k : String) (v : Json)
    (h : lookupKey d k = none) : setKey d k v = d ++ [(k, v)] := by
  induction d with
  | nil => rfl
  | cons kv d ih =>
    obtain ⟨k', v'⟩ := kv
    by_cases hk : k' = k
    · simp [lookupKey, hk] at h
    · simp only [lookupKey, hk, if_false] at h
      simp [setKey, hk, ih h]

theorem keysNodup_cons_facts (k : String) (v : Json) (kvs : List (String × Json))
    (h : keysNodup ((k, v) :: kvs) = true) :
    keysNodup kvs = true ∧ ∀ kv ∈ kvs, kv.1 ≠ k := by
  simp only [keysNodup] at h
  obtain ⟨hnot, hnd⟩ := (Bool.and_eq_true _ _).mp h
  refine ⟨hnd, ?_⟩
  intro kv hkv he
  have hany : kvs.any (fun kv => kv.1 == k) = true :=
    List.any_eq_true.mpr ⟨kv, hkv, by rw [he]; exact beq_self_eq_true k⟩
  rw [hany] at hnot
  exact Bool.noConfusion hnot

theorem foldl_setKey_append (kvs : List (String × Json)) :
    ∀ acc, keysNodup kvs = true →
      (∀ kv ∈ kvs, lookupKey acc kv.1 = none) →
      kvs.foldl (fun a kv => setKey a kv.1 kv.2) acc = acc ++ kvs := by
  induction kvs with
  | nil =>
    intro acc _ _
    simp
  | cons kv kvs ih =>
    obtain ⟨k, v⟩ := kv
    intro acc hnd hdisj
    obtain ⟨hnd', hne⟩ := keysNodup_cons_facts k v kvs hnd
    rw [List.foldl_cons]
    show kvs.foldl (fun a kv => setKey a kv.1 kv.2) (setKey acc k v) = _
    rw [setKey_of_lookup_none _ _ _ (hdisj (k, v) (by simp))]
    rw [ih (acc ++ [(k, v)]) hnd' ?_]
    · simp
    · intro kv2 hkv2
      rw [lookupKey_append_none _ _ _ (hdisj kv2 (by simp [hkv2]))]
      simp [lookupKey, Ne.symm (hne kv2 hkv2)]

theorem parseVal_quote (f : Nat) (rest : List Char) :
    parseVal (f + 1) ('"' :: rest) =
      (match parseStrChars (f + 1) rest with
        | some (s, r) => some (Json.str ⟨s⟩, r)
        | none => none) := rfl

theorem parseVal_lbrack (f : Nat) (rest : List Char) :
    parseVal (f + 1) ('[' :: rest) =
      (match skipWs rest with
        | [] => none
        | d :: r1 =>
          if d = ']' then some (Json.arr [], r1)
          else
            match parseElems f (d :: r1) with
            | some (xs, r') => some (Json.arr xs, r')
            | none => none) := rfl

theorem parseVal_lbrace (f : Nat) (rest : List Char) :
    parseVal (f + 1) ('{' :: rest) =
      (match skipWs rest with
        | [] => none
        | d :: r1 =>
          if d = '}' then some (Json.obj [], r1)
          else
            match parseMembers f (d :: r1) [] with
            | some (kvs, r') => some (Json.obj kvs, r')
            | none => none) := rfl

theorem parseVal_other (f : Nat) (c : Char) (rest : List Char)
    (hq : c ≠ '"') (hbr : c ≠ '[') (hbc : c ≠ '{') (hn : c ≠ 'n')
    (ht : c ≠ 't') (hf : c ≠ 'f') :
    parseVal (f + 1) (c :: rest) = parseNum (c :: rest) := by
  show (if c = '"' then
      match parseStrChars (f + 1) rest with
      | some (s, r) => some (Json.str ⟨s⟩, r)
      | none => none
    else if c = '[' then
      match skipWs rest with
      | [] => none
      | d :: r1 =>
        if d = ']' then some (Json.arr [], r1)
        else
          match parseElems f (d :: r1) with
          | some (xs, r') => some (Json.arr xs, r')
          | none => none
    else if c = '{' then
      match skipWs rest with
      | [] => none
      | d :: r1 =>
        if d = '}' then some (Json.obj [], r1)
        else
          match parseMembers f (d :: r1) [] with
          | some (kvs, r') => some (Json.obj kvs, r')
          | none => none
    else if c = 'n' then
      match rest with
      | 'u' :: 'l' :: 'l' :: r => some (Json.null, r)
      | _ => none
    else if c = 't' then
      match rest with
      | 'r' :: 'u' :: 'e' :: r => some (Json.bool true, r)
      | _ => none
    else if c = 'f' then
      match rest with
      | 'a' :: 'l' :: 's' :: 'e' :: r => some (Json.bool false, r)
      | _ => none
    else parseNum (c :: rest)) = parseNum (c :: rest)
  rw [if_neg hq, if_neg hbr, if_neg hbc, if_neg hn, if_neg ht, if_neg hf]

theorem parseVal_dumps (v : Json) (hwf : WfJ v) :
    ∀ f rest, (dumpsVal v).length < f → numBoundary rest = true →
      parseVal f (dumpsVal v ++ rest) = some (v, rest) := by
  induction hwf with
  | null =>
    intro f rest hf hb
    cases f with
    | zero => exact absurd hf (Nat.not_lt_zero _)
    | succ f' =>
      rw [show dumpsVal Json.null = ['n', 'u', 'l', 'l'] from rfl]
      simp [parseVal]
  | bool b =>
    intro f rest hf hb
    cases f with
    | zero => exact absurd hf (Nat.not_lt_zero _)
    | succ f' =>
      cases b
      · rw [show dumpsVal (Json.bool false) = ['f', 'a', 'l', 's', 'e'] from rfl]
        simp [parseVal]
      · rw [show dumpsVal (Json.bool true) = ['t', 'r', 'u', 'e'] from rfl]
        simp [parseVal]
  | num l h1 h2 =>
    intro f rest hf hb
    obtain ⟨c, t, hl, hc⟩ := validNum_head l.data h1
    obtain ⟨hq, hbr, hbc, hn, ht', hf', hws, _⟩ := numHead_facts c hc
    cases f with
    | zero => exact absurd hf (Nat.not_lt_zero _)
    | succ f' =>
      show parseVal (f' + 1) (l.data ++ rest) = some (.num l, rest)
      rw [hl]
      show parseVal (f' + 1) (c :: (t ++ rest)) = some (.num l, rest)
      rw [parseVal_other f' c (t ++ rest) hq hbr hbc hn ht' hf']
      rw [show c :: (t ++ rest) = (c :: t) ++ rest from rfl, ← hl]
      exact parseNum_roundtrip l.data h1 h2 rest hb
  | str s =>
    intro f rest hf hb
    cases f with
    | zero => exact absurd hf (Nat.not_lt_zero _)
    | succ f' =>
      have hr : escapeStr s ++ rest =
          '"' :: ((s.data.map escapeChar).flatten ++ '"' :: rest) := by
        simp [escapeStr]
      show parseVal (f' + 1) (escapeStr s ++ rest) = some (.str s, rest)
      rw [hr, parseVal_quote]
      have hesc := parseStrChars_escape s.data (f' + 1) rest
        (by
          rw [show dumpsVal (Json.str s) = escapeStr s from rfl] at hf
          simp [escapeStr] at hf ⊢
          omega)
      rw [hesc]
  | arr xs hmem ih =>
    intro f rest hf hb
    cases f with
    | zero => exact absurd hf (Nat.not_lt_zero _)
    | succ f' =>
      cases xs with
      | nil => rfl
      | cons y ys =>
        have hd : dumpsVal (.arr (y :: ys)) ++ rest =
            '[' :: (dumpsElems (y :: ys) ++ ']' :: rest) := by
          show ('[' :: (dumpsElems (y :: ys) ++ [']'])) ++ rest = _
          simp
        rw [hd, parseVal_lbrack]
        obtain ⟨c, t, hd2, hws, hnrb⟩ := dumpsElems_head y ys (hmem y (by simp))
        have hskip : skipWs (dumpsElems (y :: ys) ++ ']' :: rest) =
            dumpsElems (y :: ys) ++ ']' :: rest := by
          rw [hd2]
          show List.dropWhile isJsonWs (c :: (t ++ ']' :: rest)) = _
          rw [List.dropWhile_cons_of_neg (by simp [hws])]
          rfl
        have hE := parseElems_dumps (y :: ys) (by simp)
          (fun z hz => ih z hz) (fun z hz => hmem z hz) f' rest
          (by
            rw [show dumpsVal (Json.arr (y :: ys)) =
              '[' :: (dumpsElems (y :: ys) ++ [']']) from rfl] at hf
            simp at hf
            omega)
        rw [hskip, hd2]
        show (if c = ']' then some (Json.arr [], t ++ ']' :: rest)
          else
            match parseElems f' (c :: (t ++ ']' :: rest)) with
            | some (xs, r') => some (Json.arr xs, r')
            | none => none) = some (.arr (y :: ys), rest)
        rw [if_neg hnrb]
        rw [hd2] at hE
        show (match parseElems f' ((c :: t) ++ ']' :: rest) with
          | some (xs, r') => some (Json.arr xs, r')
          | none => none) = some (.arr (y :: ys), rest)
        rw [hE]
  | obj kvs hk hmem ih =>
    intro f rest hf hb
    cases f with
    | zero => exact absurd hf (Nat.not_lt_zero _)
    | succ f' =>
      cases kvs with
      | nil => rfl
      | cons kv kvs' =>
        have hd : dumpsVal (.obj (kv :: kvs')) ++ rest =
            '{' :: (dumpsMembers (kv :: kvs') ++ '}' :: rest) := by
          show ('{' :: (dumpsMembers (kv :: kvs') ++ ['}'])) ++ rest = _
          simp
        rw [hd, parseVal_lbrace]
        obtain ⟨t0, ht0⟩ := dumpsMembers_head kv.1 kv.2 kvs'
        rw [show (kv.1, kv.2) = kv from rfl] at ht0
        have hskip : skipWs (dumpsMembers (kv :: kvs') ++ '}' :: rest) =
            dumpsMembers (kv :: kvs') ++ '}' :: rest := by
          rw [ht0]
          show List.dropWhile isJsonWs ('"' :: (t0 ++ '}' :: rest)) = _
          rw [List.dropWhile_cons_of_neg (by decide)]
          rfl
        have hM := parseMembers_dumps (kv :: kvs') (by simp)
          (fun z hz => ih z hz) (fun z hz => hmem z hz) f' rest []
          (by
            rw [show dumpsVal (Json.obj (kv :: kvs')) =
              '{' :: (dumpsMembers (kv :: kvs') ++ ['}']) from rfl] at hf
            simp at hf
            omega)
        have hfold : (kv :: kvs').foldl (fun a kv => setKey a kv.1 kv.2) [] =
            kv :: kvs' := by
          have := foldl_setKey_append (kv :: kvs') [] hk (by intro z hz; rfl)
          simpa using this
        rw [hfold] at hM
        rw [hskip, ht0]
        show (if '"' = '}' then some (Json.obj [], t0 ++ '}' :: rest)
          else
            match parseMembers f' ('"' :: (t0 ++ '}' :: rest)) [] with
            | some (kvs, r') => some (Json.obj kvs, r')
            | none => none) = some (.obj (kv :: kvs'), rest)
        rw [if_neg (by decide)]
        rw [ht0] at hM
        show (match parseMembers f' (('"' :: t0) ++ '}' :: rest) [] with
          | some (kvs, r') => some (Json.obj kvs, r')
          | none => none) = some (.obj (kv :: kvs'), rest)
        rw [hM]

theorem takeWhile_all (p : Char → Bool) (cs : List Char) :
    (cs.takeWhile p).all p = true :=
  List.all_eq_true.mpr (fun _ ha => List.mem_takeWhile_imp ha)

theorem parseVal_litn (f : Nat) (rest : List Char) :
    parseVal (f + 1) ('n' :: rest) =
      (match rest with
        | 'u' :: 'l' :: 'l' :: r => some (Json.null, r)
        | _ => none) := rfl

theorem parseVal_litt (f : Nat) (rest : List Char) :
    parseVal (f + 1) ('t' :: rest) =
      (match rest with
        | 'r' :: 'u' :: 'e' :: r => some (Json.bool true, r)
        | _ => none) := rfl

theorem parseVal_litf (f : Nat) (rest : List Char) :
    parseVal (f + 1) ('f' :: rest) =
      (match rest with
        | 'a' :: 'l' :: 's' :: 'e' :: r => some (Json.bool false, r)
        | _ => none) := rfl

theorem parseElems_succ (f : Nat) (cs : List Char) :
    parseElems (f + 1) cs =
      (match parseVal f cs with
        | none => none
        | some (v, rest) =>
          match skipWs rest with
          | ',' :: r =>
            (match parseElems f (skipWs r) with
              | some (xs, r') => some (v :: xs, r')
              | none => none)
          | ']' :: r => some ([v], r)
          | _ => none) := rfl

theorem parseMembers_succ (f : Nat) (cs : List Char) (acc : List (String × Json)) :
    parseMembers (f + 1) cs acc =
      (match cs with
        | '"' :: r0 =>
          match parseStrChars (f + 1) r0 with
          | none => none
          | some (k, r1) =>
            match skipWs r1 with
            | ':' :: r2 =>
              match parseVal f (skipWs r2) with
              | none => none
              | some (v, r3) =>
                match skipWs r3 with
                | ',' :: r4 => parseMembers f (skipWs r4) (setKey acc ⟨k⟩ v)
                | '}' :: r4 => some (setKey acc ⟨k⟩ v, r4)
                | _ => none
            | _ => none
        | _ => none) := rfl

theorem any_key_setKey (d : List (String × Json)) (k k' : String) (w : Json)
    (hne : k ≠ k') :
    (setKey d k w).any (fun kv => kv.1 == k') = d.any (fun kv => kv.1 == k') := by
  induction d with
  | nil => simp [setKey, hne]
  | cons kv d ih =>
    obtain ⟨k0, v0⟩ := kv
    by_cases h0 : k0 = k
    · simp [setKey, h0]
    · simp [setKey, h0, ih]

theorem keysNodup_setKey (d : List (String × Json)) (k : String) (w : Json)
    (h : keysNodup d = true) : keysNodup (setKey d k w) = true := by
  induction d with
  | nil => simp [setKey, keysNodup]
  | cons kv d ih =>
    obtain ⟨k0, v0⟩ := kv
    by_cases h0 : k0 = k
    · rw [show setKey ((k0, v0) :: d) k w = (k0, w) :: d from by simp [setKey, h0]]
      simp only [keysNodup] at h ⊢
      exact h
    · rw [show setKey ((k0, v0) :: d) k w = (k0, v0) :: setKey d k w from
        by simp [setKey, h0]]
      simp only [keysNodup] at h ⊢
      obtain ⟨h1, h2⟩ := (Bool.and_eq_true _ _).mp h
      refine (Bool.and_eq_true _ _).mpr ⟨?_, ih h2⟩
      rw [any_key_setKey d k k0 w (fun he => h0 he.symm)]
      exact h1

theorem mem_setKey (d : List (String × Json)) (k : String) (w : Json)
    (kv : String × Json) (h : kv ∈ setKey d k w) : kv ∈ d ∨ kv = (k, w) := by
  induction d with
  | nil =>
    simp [setKey] at h
    exact Or.inr h
  | cons kv0 d ih =>
    obtain ⟨k0, v0⟩ := kv0
    by_cases h0 : k0 = k
    · rw [show setKey ((k0, v0) :: d) k w = (k0, w) :: d from by simp [setKey, h0]] at h
      rcases List.mem_cons.mp h with h | h
      · rw [h0] at h
        exact Or.inr h
      · exact Or.inl (List.mem_cons_of_mem _ h)
    · rw [show setKey ((k0, v0) :: d) k w = (k0, v0) :: setKey d k w from
        by simp [setKey, h0]] at h
      rcases List.mem_cons.mp h with h | h
      · exact Or.inl (by rw [h]; exact List.mem_cons_self _ _)
      · rcases ih h with h | h
        · exact Or.inl (List.mem_cons_of_mem _ h)
        · exact Or.inr h

theorem WfJ_setKey (d : List (String × Json)) (k : String) (w : Json)
    (hd : WfJ (.obj d)) (hw : WfJ w) : WfJ (.obj (setKey d k w)) := by
  cases hd with
  | obj _ hk hmem =>
    refine WfJ.obj _ (keysNodup_setKey d k w hk) ?_
    intro kv hkv
    rcases mem_setKey d k w kv hkv with h | h
    · exact hmem kv h
    · rw [h]
      exact hw

theorem WfJ_defaultTags : WfJ defaultTags := by
  show WfJ (.obj [("cuisine", .arr []), ("main_ingredient", .arr []),
    ("cooking_method", .arr []), ("meal_type", .arr [])])
  refine WfJ.obj _ rfl ?_
  intro kv hkv
  simp at hkv
  rcases hkv with rfl | rfl | rfl | rfl <;>
    exact WfJ.arr [] (fun x hx => absurd hx (List.not_mem_nil x))

theorem WfJ_emptyRecipe : WfJ (.obj emptyRecipe) := by
  show WfJ (.obj [("title", .null), ("ingredients", .arr []), ("directions", .arr []),
    ("cooking_time", .null), ("servings", .null), ("tags", defaultTags)])
  refine WfJ.obj _ rfl ?_
  intro kv hkv
  simp at hkv
  rcases hkv with rfl | rfl | rfl | rfl | rfl | rfl
  · exact WfJ.null
  · exact WfJ.arr [] (fun x hx => absurd hx (List.not_mem_nil x))
  · exact WfJ.arr [] (fun x hx => absurd hx (List.not_mem_nil x))
  · exact WfJ.null
  · exact WfJ.null
  · exact WfJ_defaultTags

theorem parsers_wf : ∀ f : Nat,
    (∀ cs v rest, parseVal f cs = some (v, rest) → WfJ v) ∧
    (∀ cs xs rest, parseElems f cs = some (xs, rest) → ∀ x ∈ xs, WfJ x) ∧
    (∀ cs acc kvs rest, WfJ (.obj acc) → parseMembers f cs acc = some (kvs, rest) →
      WfJ (.obj kvs)) := by
  intro f
  induction f with
  | zero =>
    refine ⟨?_, ?_, ?_⟩
    · intro cs v rest h
      exact Option.noConfusion h
    · intro cs xs rest h
      exact Option.noConfusion h
    · intro cs acc kvs rest _ h
      exact Option.noConfusion h
  | succ f ih =>
    obtain ⟨ihV, ihE, ihM⟩ := ih
    refine ⟨?_, ?_, ?_⟩
    · intro cs v rest h
      cases cs with
      | nil => exact Option.noConfusion h
      | cons c cs0 =>
        by_cases hq : c = '"'
        · subst hq
          rw [parseVal_quote] at h
          split at h
          · rename_i s r heq
            injection h with h
            injection h with h1 h2
            subst h1
            exact WfJ.str _
          · exact Option.noConfusion h
        · by_cases hbr : c = '['
          · subst hbr
            rw [parseVal_lbrack] at h
            split at h
            · exact Option.noConfusion h
            · split at h
              · injection h with h
                injection h with h1 h2
                subst h1
                exact WfJ.arr [] (fun x hx => absurd hx (List.not_mem_nil x))
              · split at h
                · rename_i xs r' heq2
                  injection h with h
                  injection h with h1 h2
                  subst h1
                  exact WfJ.arr xs (ihE _ _ _ heq2)
                · exact Option.noConfusion h
          · by_cases hbc : c = '{'
            · subst hbc
              rw [parseVal_lbrace] at h
              split at h
              · exact Option.noConfusion h
              · split at h
                · injection h with h
                  injection h with h1 h2
                  subst h1
                  exact WfJ.obj [] rfl (fun kv hkv => absurd hkv (List.not_mem_nil kv))
                · split at h
                  · rename_i kvs r' heq2
                    injection h with h
                    injection h with h1 h2
                    subst h1
                    exact ihM _ []  _ _
                      (WfJ.obj [] rfl (fun kv hkv => absurd hkv (List.not_mem_nil kv)))
                      heq2
                  · exact Option.noConfusion h
            · by_cases hn : c = 'n'
              · subst hn
                rw [parseVal_litn] at h
                split at h
                · injection h with h
                  injection h with h1 h2
                  subst h1
                  exact WfJ.null
                · exact Option.noConfusion h
              · by_cases ht : c = 't'
                · subst ht
                  rw [parseVal_litt] at h
                  split at h
                  · injection h with h
                    injection h with h1 h2
                    subst h1
                    exact WfJ.bool true
                  · exact Option.noConfusion h
                · by_cases hf : c = 'f'
                  · subst hf
                    rw [parseVal_litf] at h
                    split at h
                    · injection h with h
                      injection h with h1 h2
                      subst h1
                      exact WfJ.bool false
                    · exact Option.noConfusion h
                  · rw [parseVal_other f c cs0 hq hbr hbc hn ht hf] at h
                    simp only [parseNum] at h
                    split at h
                    · rename_i hval
                      injection h with h
                      injection h with h1 h2
                      subst h1
                      exact WfJ.num _ hval (takeWhile_all _ _)
                    · exact Option.noConfusion h
    · intro cs xs rest h
      rw [parseElems_succ] at h
      split at h
      · exact Option.noConfusion h
      · rename_i v0 r0 heqV
        split at h
        · split at h
          · rename_i ys r' heqE
            injection h with h
            injection h with h1 h2
            subst h1
            intro x hx
            rcases List.mem_cons.mp hx with rfl | hx
            · exact ihV _ _ _ heqV
            · exact ihE _ _ _ heqE x hx
          · exact Option.noConfusion h
        · injection h with h
          injection h with h1 h2
          subst h1
          intro x hx
          rcases List.mem_cons.mp hx with rfl | hx
          · exact ihV _ _ _ heqV
          · exact absurd hx (List.not_mem_nil x)
        · exact Option.noConfusion h
    · intro cs acc kvs rest hacc h
      rw [parseMembers_succ] at h
      split at h
      · split at h
        · exact Option.noConfusion h
        · rename_i k r1 heqK
          split at h
          · split at h
            · exact Option.noConfusion h
            · rename_i v r3 heqV
              split at h
              · exact ihM _ _ _ _ (WfJ_setKey acc ⟨k⟩ v hacc (ihV _ _ _ heqV)) h
              · injection h with h
                injection h with h1 h2
                subst h1
                exact WfJ_setKey acc ⟨k⟩ v hacc (ihV _ _ _ heqV)
              · exact Option.noConfusion h
          · exact Option.noConfusion h
      · exact Option.noConfusion h

theorem loadsList_wf (cs : List Char) (v : Json) (h : loadsList cs = some v) :
    WfJ v := by
  unfold loadsList at h
  split at h
  · rename_i w rest heq
    split at h
    · injection h with h
      subst h
      exact (parsers_wf _).1 _ _ _ heq
    · exact Option.noConfusion h
  · exact Option.noConfusion h

theorem parseRepair_wf (cs : List Char) : WfJ (parseRepair cs) := by
  cases h1 : loadsList cs with
  | some v =>
    have he : parseRepair cs = v := by
      unfold parseRepair
      simp only [h1]
    rw [he]
    exact loadsList_wf cs v h1
  | none =>
    cases h2 : braceSpan cs with
    | none =>
      have he : parseRepair cs = .obj emptyRecipe := by
        unfold parseRepair
        simp only [h1, h2]
      rw [he]
      exact WfJ_emptyRecipe
    | some span =>
      cases h3 : loadsList span with
      | none =>
        have he : parseRepair cs = .obj emptyRecipe := by
          unfold parseRepair
          simp only [h1, h2, h3]
        rw [he]
        exact WfJ_emptyRecipe
      | some w =>
        have he : parseRepair cs = w := by
          unfold parseRepair
          simp only [h1, h2, h3]
        rw [he]
        exact loadsList_wf span w h3

theorem loadsList_dumpsVal (v : Json) (hwf : WfJ v) :
    loadsList (dumpsVal v) = some v := by
  obtain ⟨c, t, hdv, hws, _⟩ := dumpsVal_head_facts v hwf
  have hskip : skipWs (dumpsVal v) = dumpsVal v := by
    rw [hdv]
    show List.dropWhile isJsonWs (c :: t) = c :: t
    rw [List.dropWhile_cons_of_neg (by simp [hws])]
  have hmain := parseVal_dumps v hwf ((dumpsVal v).length + 1) [] (by omega) rfl
  rw [List.append_nil] at hmain
  show (match parseVal ((dumpsVal v).length + 1) (skipWs (dumpsVal v)) with
    | some (w, rest) => if skipWs rest = [] then some w else none
    | none => none) = some v
  rw [hskip, hmain]
  rfl

theorem not_ticks_prefix_brace (t : List Char) :
    ¬ (ticks.isPrefixOf ('{' :: t) = true) := by
  rw [List.isPrefixOf_iff_prefix]
  intro hpre
  obtain ⟨u, hu⟩ := hpre
  rw [show ticks ++ u = '`' :: (['`', '`'] ++ u) from rfl] at hu
  injection hu with h1 h2
  exact absurd h1 (by decide)

theorem cleanResponse_dumps_obj (kvs : List (String × Json)) :
    cleanResponse (dumps (.obj kvs)) = dumpsVal (.obj kvs) := by
  have hcons : dumpsVal (.obj kvs) = '{' :: (dumpsMembers kvs ++ ['}']) := rfl
  have hstrip : pyStrip (dumpsVal (.obj kvs)) = dumpsVal (.obj kvs) := by
    apply pyStrip_eq_self
    · intro c hc
      rw [hcons] at hc
      simp only [List.head?_cons, Option.some.injEq] at hc
      rw [← hc]
      decide
    · intro c hc
      rw [hcons, show '{' :: (dumpsMembers kvs ++ ['}']) =
        ('{' :: dumpsMembers kvs) ++ ['}'] from rfl] at hc
      rw [List.getLast?_concat] at hc
      injection hc with hc
      rw [← hc]
      decide
  show stripFences (pyStrip (dumpsVal (.obj kvs))) = dumpsVal (.obj kvs)
  rw [hstrip]
  unfold stripFences
  rw [hcons, if_neg (not_ticks_prefix_brace _)]

theorem lookupKey_isSome_setKey (d : List (String × Json)) (k k2 : String) (w : Json)
    (h : (lookupKey d k).isSome = true) :
    (lookupKey (setKey d k2 w) k).isSome = true := by
  by_cases he : k = k2
  · subst he
    rw [lookupKey_setKey_self]
    rfl
  · rw [lookupKey_setKey_ne d k2 k w he]
    exact h

theorem ensureFields_eq (d : List (String × Json)) :
    ensureFields d =
      (fun e k w => if (lookupKey e k).isSome then e else setKey e k w)
        ((fun e k w => if (lookupKey e k).isSome then e else setKey e k w)
          ((fun e k w => if (lookupKey e k).isSome then e else setKey e k w)
            ((fun e k w => if (lookupKey e k).isSome then e else setKey e k w)
              d "title" Json.null)
            "ingredients" (Json.arr []))
          "directions" (Json.arr []))
        "tags" defaultTags := rfl

theorem backfillStep_isSome (e : List (String × Json)) (k : String) (w : Json) :
    (lookupKey (if (lookupKey e k).isSome then e else setKey e k w) k).isSome = true := by
  by_cases h : (lookupKey e k).isSome = true
  · rw [if_pos h]
    exact h
  · rw [if_neg h, lookupKey_setKey_self]
    rfl

theorem backfillStep_pres (e : List (String × Json)) (k k2 : String) (w : Json)
    (h : (lookupKey e k).isSome = true) :
    (lookupKey (if (lookupKey e k2).isSome then e else setKey e k2 w) k).isSome = true := by
  by_cases h2 : (lookupKey e k2).isSome = true
  · rw [if_pos h2]
    exact h
  · rw [if_neg h2]
    exact lookupKey_isSome_setKey e k k2 w h

theorem ensureFields_keys (d : List (String × Json)) :
    (lookupKey (ensureFields d) "title").isSome = true ∧
    (lookupKey (ensureFields d) "ingredients").isSome = true ∧
    (lookupKey (ensureFields d) "directions").isSome = true ∧
    (lookupKey (ensureFields d) "tags").isSome = true := by
  rw [ensureFields_eq]
  refine ⟨?_, ?_, ?_, ?_⟩
  · exact backfillStep_pres _ _ _ _ (backfillStep_pres _ _ _ _
      (backfillStep_pres _ _ _ _ (backfillStep_isSome _ _ _)))
  · exact backfillStep_pres _ _ _ _ (backfillStep_pres _ _ _ _
      (backfillStep_isSome _ _ _))
  · exact backfillStep_pres _ _ _ _ (backfillStep_isSome _ _ _)
  · exact backfillStep_isSome _ _ _

theorem ensureFields_eq_self (d : List (String × Json))
    (h1 : (lookupKey d "title").isSome = true)
    (h2 : (lookupKey d "ingredients").isSome = true)
    (h3 : (lookupKey d "directions").isSome = true)
    (h4 : (lookupKey d "tags").isSome = true) :
    ensureFields d = d := by
  simp only [ensureFields, h1, h2, h3, h4, if_true]

theorem WfJ_ensureFields (d : List (String × Json)) (hd : WfJ (.obj d)) :
    WfJ (.obj (ensureFields d)) := by
  have step : ∀ (e : List (String × Json)) (k : String) (w : Json),
      WfJ (.obj e) → WfJ w →
      WfJ (.obj (if (lookupKey e k).isSome then e else setKey e k w)) := by
    intro e k w he hw
    split
    · exact he
    · exact WfJ_setKey e k w he hw
  rw [ensureFields_eq]
  exact step _ _ _ (step _ _ _ (step _ _ _ (step _ _ _ hd WfJ.null)
    (WfJ.arr [] (fun x hx => absurd hx (List.not_mem_nil x))))
    (WfJ.arr [] (fun x hx => absurd hx (List.not_mem_nil x)))) WfJ_defaultTags

theorem normalizeResponse_ok_inv (c u : String) (r : List (String × Json))
    (h : normalizeResponse c u = .ok r) :
    ∃ d, parseRepair (cleanResponse c) = .obj d ∧
      r = setKey (ensureFields d) "source_url" (.str u) := by
  unfold normalizeResponse at h
  split at h
  · rename_i d heq
    injection h with h
    exact ⟨d, heq, h.symm⟩
  · exact Except.noConfusion h

/-- C9: the Normalizer is idempotent — whenever the normalizer returns a
record `r` for some completion and URL, serialising `r` back to JSON text
(`json.dumps`) and running the normalizer on that text with the same URL
returns exactly `r` again. -/
theorem claim_C9_idempotent (c u : String) (r : List (String × Json))
    (h : normalizeResponse c u = .ok r) :
    normalizeResponse (dumps (.obj r)) u = .ok r := by
  obtain ⟨d, hp, hr⟩ := normalizeResponse_ok_inv c u r h
  have hdwf : WfJ (.obj d) := by
    rw [← hp]
    exact parseRepair_wf (cleanResponse c)
  have hrwf : WfJ (.obj r) := by
    rw [hr]
    exact WfJ_setKey _ _ _ (WfJ_ensureFields d hdwf) (WfJ.str u)
  have hclean := cleanResponse_dumps_obj r
  have hload := loadsList_dumpsVal (.obj r) hrwf
  have hrep : parseRepair (cleanResponse (dumps (.obj r))) = .obj r := by
    rw [hclean]
    unfold parseRepair
    simp only [hload]
  have hkeys := ensureFields_keys d
  have hT : (lookupKey r "title").isSome = true := by
    rw [hr]
    exact lookupKey_isSome_setKey _ _ _ _ hkeys.1
  have hI : (lookupKey r "ingredients").isSome = true := by
    rw [hr]
    exact lookupKey_isSome_setKey _ _ _ _ hkeys.2.1
  have hD : (lookupKey r "directions").isSome = true := by
    rw [hr]
    exact lookupKey_isSome_setKey _ _ _ _ hkeys.2.2.1
  have hG : (lookupKey r "tags").isSome = true := by
    rw [hr]
    exact lookupKey_isSome_setKey _ _ _ _ hkeys.2.2.2
  have hE : ensureFields r = r := ensureFields_eq_self r hT hI hD hG
  have hS : lookupKey r "source_url" = some (.str u) := by
    rw [hr]
    exact lookupKey_setKey_self _ _ _
  unfold normalizeResponse
  simp only [hrep]
  rw [hE, setKey_eq_self r "source_url" (.str u) hS]

theorem claim_C9_witness :
    normalizeResponse (dumps (.obj [("title", Json.null), ("ingredients", Json.arr []),
      ("directions", Json.arr []), ("cooking_time", Json.null), ("servings", Json.null),
      ("tags", defaultTags), ("source_url", Json.str "u")])) "u" =
      .ok [("title", Json.null), ("ingredients", Json.arr []), ("directions", Json.arr []),
        ("cooking_time", Json.null), ("servings", Json.null), ("tags", defaultTags),
        ("source_url", Json.str "u")] :=
  claim_C9_idempotent "garbage" "u" _ (by rfl)
